import Mathlib

/-!
# cash (the California Shell) and the word-count lists

A shallow embedding of `src/shell/cash.c` and of the word-count list
implementations `src/vitamin1/wordcount/word_count_l.c` and
`src/wordcount/word_count_p.c`.

Conventions of the embedding.

* A `struct command` is the ordered list of its tokens (`List String`);
  `command_get_num_tokens` is `List.length` and `command_get_token_by_index`
  is indexing.  C strings are compared with `strcmp`, which is equality of
  the strings.
* Calls into the operating system are recorded, in program order, as a list
  of `Event`s performed by the process that executes the function.  What the
  operating system answers (the result of `fork`, of `malloc`, of `open`, of
  `execve`, of `waitpid`, the environment) is a parameter, the `OS` record.
* A function that may leave through `exit` or `execve` returns an `Ending`
  next to its events.
-/

namespace Cash

/-! ## The launch specification and the token classification pass -/

/-- The four local variables the parse loop of `spawn_process` fills in:
`argv[0..argv_idx)`, `input_file`, `output_file` and `background`
(`NULL` is `none`). -/
structure LaunchSpec where
  argv : List String
  input_file : Option String
  output_file : Option String
  background : Bool
deriving DecidableEq, Repr

/-- The values of the locals before the loop (`cash.c` lines 163-166). -/
def LaunchSpec.init : LaunchSpec :=
  { argv := [], input_file := none, output_file := none, background := false }

/-- The loop `for (size_t i = 0; i < num_tokens; i++)` of `spawn_process`
(`cash.c` lines 169-183), started at index `i` with locals `s`.  A redirect
branch advances `i` twice (the `i++` of the branch and the one of the loop
header). -/
def parse_tokens_from (tokens : List String) (i : Nat) (s : LaunchSpec) : LaunchSpec :=
  if h : i < tokens.length then
    let token := tokens[i]
    if h1 : token = "<" ∧ i + 1 < tokens.length then
      parse_tokens_from tokens (i + 2)
        { s with input_file := some (tokens.get ⟨i + 1, h1.2⟩) }
    else if h2 : token = ">" ∧ i + 1 < tokens.length then
      parse_tokens_from tokens (i + 2)
        { s with output_file := some (tokens.get ⟨i + 1, h2.2⟩) }
    else if token = "&" then
      parse_tokens_from tokens (i + 1) { s with background := true }
    else
      parse_tokens_from tokens (i + 1) { s with argv := s.argv ++ [token] }
  else s
termination_by tokens.length - i

/-- The classification pass of `spawn_process`: the loop run from index 0 on
the initial locals. -/
def parse_tokens (tokens : List String) : LaunchSpec :=
  parse_tokens_from tokens 0 LaunchSpec.init

/-- The same loop, by recursion on the tokens that are still to be read (the
suffix of the command from index `i` on).  Proved equal to
`parse_tokens_from` in `parse_tokens_from_eq`. -/
def parse_list : List String → LaunchSpec → LaunchSpec
  | [], s => s
  | [token], s =>
      if token = "&" then { s with background := true }
      else { s with argv := s.argv ++ [token] }
  | token :: next :: rest, s =>
      if token = "<" then parse_list rest { s with input_file := some next }
      else if token = ">" then parse_list rest { s with output_file := some next }
      else if token = "&" then parse_list (next :: rest) { s with background := true }
      else parse_list (next :: rest) { s with argv := s.argv ++ [token] }

/-- Which branch of the parse loop handles a token position: the operator
and the operand of a taken redirect branch, the background marker, or a plain
argument (the final `else`). -/
inductive TokenRole where
  | in_operator
  | in_operand
  | out_operator
  | out_operand
  | background_marker
  | plain
deriving DecidableEq, Repr

/-- The branch taken by the parse loop of `spawn_process` at every position
of the command, in order: the control flow of `parse_list`, recording the
branch and not the locals.  A position the loop skips (the `i++` inside a
redirect branch) is the operand of that redirect. -/
def token_roles : List String → List TokenRole
  | [] => []
  | [token] =>
      if token = "&" then [TokenRole.background_marker] else [TokenRole.plain]
  | token :: next :: rest =>
      if token = "<" then
        TokenRole.in_operator :: TokenRole.in_operand :: token_roles rest
      else if token = ">" then
        TokenRole.out_operator :: TokenRole.out_operand :: token_roles rest
      else if token = "&" then
        TokenRole.background_marker :: token_roles (next :: rest)
      else TokenRole.plain :: token_roles (next :: rest)

/-- The tokens of the command whose position has role `r`, in order. -/
def tokens_with_role (r : TokenRole) (tokens : List String) : List String :=
  ((tokens.zip (token_roles tokens)).filter (fun p => decide (p.2 = r))).map Prod.fst

/-- No operator token of the command is directly followed by an operator
token; then no `<` or `>` is ever read as an operand. -/
def operators_apart (tokens : List String) : Prop :=
  ∀ i : Nat, tokens[i]? = some "<" ∨ tokens[i]? = some ">" →
    tokens[i + 1]? ≠ some "<" ∧ tokens[i + 1]? ≠ some ">"

/-- The last element of `l` when there is one, `d` otherwise. -/
def last_or (l : List String) (d : Option String) : Option String :=
  match l.getLast? with
  | some x => some x
  | none => d

/-! ## The operating system: events and answers -/

/-- The six signals whose disposition the shell changes. -/
inductive Signal where
  | SIGINT
  | SIGQUIT
  | SIGTERM
  | SIGTSTP
  | SIGTTIN
  | SIGTTOU
deriving DecidableEq, Repr

/-- A signal disposition: ignore or default. -/
inductive Disposition where
  | SIG_IGN
  | SIG_DFL
deriving DecidableEq, Repr

/-- The two ways `spawn_process` opens a file: `O_RDONLY`, and
`O_WRONLY | O_CREAT | O_TRUNC` with a permission mode. -/
inductive OpenMode where
  | rdonly
  | wronly_creat_trunc (mode : Nat)
deriving DecidableEq, Repr

/-- One call into the operating system or the C library that has an effect
outside the function, as performed by the executing process. -/
inductive Event where
  | stdout_write (text : String)
  | stderr_write (text : String)
  | signal (sig : Signal) (disposition : Disposition)
  | access (path : String) (executable : Bool)
  | fork (result : Int)
  | setpgid (pid pgid : Int)
  | tcsetpgrp (fd pgrp : Int)
  | open_file (path : String) (mode : OpenMode) (fd : Int)
  | dup2 (fd target : Int)
  | close (fd : Int)
  | execve (program : String) (argv : List String) (envp : List String)
  | waitpid (pid result : Int)
  | chdir (path : String)
  | proc_exit (status : Int)
deriving DecidableEq, Repr

/-- How a function leaves: it returns to its caller, the process ends through
`exit`, or the process image is replaced by a successful `execve`. -/
inductive Ending where
  | returned
  | exited (status : Int)
  | replaced
deriving DecidableEq, Repr

/-- The descriptor of standard input (`unistd.h`). -/
def STDIN_FILENO : Int := 0

/-- The descriptor of standard output (`unistd.h`). -/
def STDOUT_FILENO : Int := 1

/-- The failure status of `stdlib.h`, 1 on POSIX systems. -/
def EXIT_FAILURE : Int := 1

/-- The answers of the operating system and the C library to the calls of the
shell.  An error text is what `strerror(errno)` gives after the failed call. -/
structure OS where
  /-- whether `malloc` of the argument vector in `spawn_process` succeeds -/
  argv_alloc : Bool
  /-- whether the `k`-th allocation made by one call of `resolve_path`
  (`strdup` or `malloc`, counted from 0) succeeds -/
  path_alloc : Nat → Bool
  /-- whether `malloc` in `add_bg_job` succeeds -/
  job_alloc : Bool
  /-- error text after a failed allocation -/
  alloc_error : String
  /-- `getenv("PATH")` -/
  path_env : Option String
  /-- `getenv("HOME")` -/
  home_env : Option String
  /-- the inherited environment `environ` -/
  environ : List String
  /-- `access(path, X_OK) == 0` -/
  access_x : String → Bool
  /-- the return value of `fork` in the process that is followed -/
  fork_result : Int
  /-- error text after a failed `fork` -/
  fork_error : String
  /-- `getpgrp()` in the shell -/
  shell_pgrp : Int
  /-- `getpgrp()` in the forked child, after its `setpgid(0, 0)` -/
  child_pgrp : Int
  /-- `open`: a descriptor, or the error text -/
  open_file : String → OpenMode → Except String Nat
  /-- `execve`: `none` when the image is replaced, the error text when the
  call returns -/
  execve : String → List String → List String → Option String
  /-- the return value of `waitpid(pid, &status, 0)` for the foreground child -/
  fg_wait : Int
  /-- the status the foreground wait stores in `status` (never read by the shell) -/
  fg_status : Int
  /-- the return values of the successive calls `waitpid(-1, &status, 0)`;
  once they are used up the call reports that no child is left (`-1`) -/
  wait_any : List Int
  /-- `atoi` -/
  atoi : String → Int
  /-- `getcwd(cwd, 1024)`: the directory, or the error text -/
  getcwd : Except String String
  /-- `chdir`: `none` on success, the error text on failure -/
  chdir : String → Option String

/-- What `perror(s)` writes to standard error when `strerror(errno)` is `e`:
the string `s`, a colon and a blank, then the error text and a newline; when
`s` is the empty string the error text and the newline only. -/
def perror (s e : String) : Event :=
  Event.stderr_write (if s = "" then e ++ "\n" else s ++ ": " ++ e ++ "\n")

/-! ## The background job registry -/

/-- The function `add_bg_job`: the new record becomes the head of `bg_jobs`;
when `malloc` fails a diagnostic is written and the list is left alone. -/
def add_bg_job (os : OS) (bg_jobs : List Int) (pid : Int) : List Event × List Int :=
  if os.job_alloc then ([], pid :: bg_jobs)
  else ([perror "malloc" os.alloc_error], bg_jobs)

/-- The inner loop of `wait_all_bg_jobs` (`cash.c` lines 46-55): unlink the
first record whose pid is `pid`, if there is one. -/
def remove_job (pid : Int) : List Int → List Int
  | [] => []
  | job :: rest => if job = pid then rest else job :: remove_job pid rest

/-- What `wait_all_bg_jobs` leaves behind: its calls and the registry. -/
structure DrainResult where
  events : List Event
  bg_jobs : List Int
deriving DecidableEq, Repr

/-- The function `wait_all_bg_jobs`, run on the registry `bg_jobs` with
`results` the return values the coming calls of `waitpid(-1, &status, 0)`
give (after them the call gives `-1`). -/
def wait_all_bg_jobs : List Int → List Int → DrainResult
  | _, [] => { events := [], bg_jobs := [] }
  | [], job :: rest => { events := [Event.waitpid (-1) (-1)], bg_jobs := job :: rest }
  | pid :: results, job :: rest =>
      if pid ≤ 0 then { events := [Event.waitpid (-1) pid], bg_jobs := job :: rest }
      else
        let d := wait_all_bg_jobs results (remove_job pid (job :: rest))
        { events := Event.waitpid (-1) pid :: d.events, bg_jobs := d.bg_jobs }

/-! ## The path resolver -/

/-- The tokens that successive calls of `strtok_r(.., ":", ..)` cut out of a
string: the non-empty maximal runs of characters other than the delimiter.
`cur` is the run being read. -/
def strtok_fields (delim : Char) : List Char → List Char → List (List Char)
  | [], cur => if cur = [] then [] else [cur]
  | c :: cs, cur =>
      if c = delim then
        if cur = [] then strtok_fields delim cs []
        else cur :: strtok_fields delim cs []
      else strtok_fields delim cs (cur ++ [c])

/-- What `resolve_path` gives back: the returned string (`none` is `NULL`)
and the `access` calls it made. -/
structure ResolveResult where
  result : Option String
  events : List Event
deriving DecidableEq, Repr

/-- The `while (dir != NULL)` loop of `resolve_path` and the final
`strdup(program)`, over the directories still to come; `k` counts the
allocations made so far. -/
def search_path (os : OS) (program : String) : List String → Nat → ResolveResult
  | [], k =>
      { result := if os.path_alloc k then some program else none, events := [] }
  | dir :: rest, k =>
      if os.path_alloc k then
        let full_path := dir ++ "/" ++ program
        if os.access_x full_path then
          { result := some full_path, events := [Event.access full_path true] }
        else
          let r := search_path os program rest (k + 1)
          { result := r.result, events := Event.access full_path false :: r.events }
      else { result := none, events := [] }

/-- The function `resolve_path`. -/
def resolve_path (os : OS) : Option String → ResolveResult
  | none => { result := none, events := [] }
  | some program =>
      if '/' ∈ program.toList then
        { result := if os.path_alloc 0 then some program else none, events := [] }
      else
        match os.path_env with
        | none => { result := if os.path_alloc 0 then some program else none, events := [] }
        | some path_env =>
            if os.path_alloc 0 then
              search_path os program
                ((strtok_fields ':' path_env.toList []).map String.mk) 1
            else { result := none, events := [] }

/-! ### The resolver as the specification words it -/

/-- A string split on a delimiter: the fields between the delimiters, in
order, empty fields included.  `cur` is the field being read. -/
def split_fields (delim : Char) : List Char → List Char → List (List Char)
  | [], cur => [cur]
  | c :: cs, cur =>
      if c = delim then cur :: split_fields delim cs []
      else split_fields delim cs (cur ++ [c])

/-- The search-path value split on `:` into its ordered sequence of
directories. -/
def path_dirs (path_env : String) : List String :=
  (split_fields ':' path_env.toList []).map String.mk

/-- The directories of the search-path value that are not the empty string. -/
def path_dirs_nonempty (path_env : String) : List String :=
  (path_dirs path_env).filter (fun dir => decide (dir ≠ ""))

/-- The resolver as specified, for a way `dirs` of reading the directories
off the search-path value: a token with a `/` is returned unchanged;
otherwise the result is `dir/token` for the first directory, in listed order,
whose candidate is executable; the token is returned unchanged when the
variable is unset or no candidate is executable. -/
def resolve_path_spec (dirs : String → List String) (path_env : Option String)
    (access_x : String → Bool) (program : String) : String :=
  if '/' ∈ program.toList then program
  else
    match path_env with
    | none => program
    | some value =>
        (((dirs value).map (fun dir => dir ++ "/" ++ program)).find? access_x).getD program

/-! ## Launching a process -/

/-- The function `reset_signal_handlers`. -/
def reset_signal_handlers : List Event :=
  [Event.signal Signal.SIGINT Disposition.SIG_DFL,
   Event.signal Signal.SIGQUIT Disposition.SIG_DFL,
   Event.signal Signal.SIGTERM Disposition.SIG_DFL,
   Event.signal Signal.SIGTSTP Disposition.SIG_DFL,
   Event.signal Signal.SIGTTIN Disposition.SIG_DFL,
   Event.signal Signal.SIGTTOU Disposition.SIG_DFL]

/-- What a call of `spawn_process` (or of the dispatch step) leaves behind in
the process that executed it. -/
structure SpawnResult where
  events : List Event
  bg_jobs : List Int
  ending : Ending
deriving DecidableEq, Repr

/-- One redirection of the child (`cash.c` lines 222-230 and 233-241): when
a path was given, open it and put the descriptor on `target`.  The flag is
`false` when the open failed and the child has exited. -/
def redirect (os : OS) (file : Option String) (mode : OpenMode) (target : Int) :
    List Event × Bool :=
  match file with
  | none => ([], true)
  | some path =>
      match os.open_file path mode with
      | Except.error e =>
          ([Event.open_file path mode (-1), perror path e, Event.proc_exit EXIT_FAILURE], false)
      | Except.ok fd =>
          ([Event.open_file path mode fd, Event.dup2 fd target, Event.close fd], true)

/-- The child branch of `spawn_process` (`pid == 0`, `cash.c` lines 208-248). -/
def spawn_child (os : OS) (interactive : Bool) (spec : LaunchSpec) (program : String) :
    List Event × Ending :=
  let start :=
    reset_signal_handlers ++ [Event.setpgid 0 0] ++
      (if !spec.background && interactive then
        [Event.tcsetpgrp STDIN_FILENO os.child_pgrp] else [])
  let rin := redirect os spec.input_file OpenMode.rdonly STDIN_FILENO
  if rin.2 then
    let rout := redirect os spec.output_file (OpenMode.wronly_creat_trunc 0o666) STDOUT_FILENO
    if rout.2 then
      match os.execve program spec.argv os.environ with
      | none =>
          (start ++ rin.1 ++ rout.1 ++ [Event.execve program spec.argv os.environ],
            Ending.replaced)
      | some e =>
          (start ++ rin.1 ++ rout.1 ++
            [Event.execve program spec.argv os.environ, perror program e,
             Event.proc_exit EXIT_FAILURE], Ending.exited EXIT_FAILURE)
    else (start ++ rin.1 ++ rout.1, Ending.exited EXIT_FAILURE)
  else (start ++ rin.1, Ending.exited EXIT_FAILURE)

/-- The parent branch of `spawn_process` (`pid > 0`, `cash.c` lines 250-276). -/
def spawn_parent (os : OS) (interactive : Bool) (bg_jobs : List Int) (spec : LaunchSpec)
    (pid : Int) : List Event × List Int :=
  if spec.background then
    let a := add_bg_job os bg_jobs pid
    ([Event.setpgid pid pid] ++ a.1, a.2)
  else
    ([Event.setpgid pid pid] ++
      (if interactive then [Event.tcsetpgrp STDIN_FILENO pid] else []) ++
      [Event.waitpid pid os.fg_wait] ++
      (if interactive then [Event.tcsetpgrp STDIN_FILENO os.shell_pgrp] else []),
     bg_jobs)

/-- The part of `spawn_process` after the parse loop (`cash.c` lines
186-277), on the locals `spec` the loop has filled in, in the process that
`os.fork_result` designates: the child when it is `0`, the shell when it is
positive. -/
def launch (os : OS) (interactive : Bool) (bg_jobs : List Int) (spec : LaunchSpec) :
    SpawnResult :=
  match spec.argv with
  | [] => { events := [], bg_jobs := bg_jobs, ending := Ending.returned }
  | arg0 :: _ =>
      let r := resolve_path os (some arg0)
      match r.result with
      | none =>
          { events := r.events ++ [Event.stderr_write (arg0 ++ ": command not found\n")],
            bg_jobs := bg_jobs, ending := Ending.returned }
      | some program =>
          let pid := os.fork_result
          if pid < 0 then
            { events := r.events ++ [Event.fork pid, perror "fork" os.fork_error],
              bg_jobs := bg_jobs, ending := Ending.returned }
          else if pid = 0 then
            let c := spawn_child os interactive spec program
            { events := r.events ++ [Event.fork pid] ++ c.1, bg_jobs := bg_jobs,
              ending := c.2 }
          else
            let q := spawn_parent os interactive bg_jobs spec pid
            { events := r.events ++ [Event.fork pid] ++ q.1, bg_jobs := q.2,
              ending := Ending.returned }

/-- The function `spawn_process`.  `interactive` is the global
`shell_is_interactive`, `bg_jobs` the global registry. -/
def spawn_process (os : OS) (interactive : Bool) (bg_jobs : List Int)
    (tokens : List String) : SpawnResult :=
  if tokens.length = 0 then
    { events := [], bg_jobs := bg_jobs, ending := Ending.returned }
  else if !os.argv_alloc then
    { events := [perror "malloc" os.alloc_error], bg_jobs := bg_jobs,
      ending := Ending.returned }
  else launch os interactive bg_jobs (parse_tokens tokens)

/-- The foreground process group of the terminal after the calls `events`,
when it was `fg` before: a `tcsetpgrp` call makes its argument the
foreground group, no other call of the shell changes it. -/
def foreground_after (fg : Int) : List Event → Int
  | [] => fg
  | Event.tcsetpgrp _ pgrp :: rest => foreground_after pgrp rest
  | _ :: rest => foreground_after fg rest

/-- Whether an event is a terminal-ownership operation. -/
def is_tcsetpgrp : Event → Bool
  | Event.tcsetpgrp _ _ => true
  | _ => false

/-- Whether an event is a call of the wait primitive. -/
def is_waitpid : Event → Bool
  | Event.waitpid _ _ => true
  | _ => false

/-- Whether an event is a call of `fork`. -/
def is_fork : Event → Bool
  | Event.fork _ => true
  | _ => false

/-! ## Built-in commands and the dispatch step -/

/-- The function `print_usage`. -/
def print_usage : List Event :=
  [Event.stdout_write "🌉 🌊 ☀️ cash: The California Shell 🌴 🐻 🏔️\n",
   Event.stdout_write "Usage: cash [script.sh]\n",
   Event.stdout_write "\n",
   Event.stdout_write "Built-in commands:\n",
   Event.stdout_write "help: Print out this usage information.\n",
   Event.stdout_write "exit <code>: Exit the shell with optional exit code.\n",
   Event.stdout_write "cd <path>: Change directory (no path = home).\n",
   Event.stdout_write "pwd: Print working directory.\n",
   Event.stdout_write "wait: Wait for all background jobs to complete.\n",
   Event.stdout_write "\n"]

/-- How `handle_builtin_command` leaves: it returns a flag, or the shell
exits. -/
inductive Outcome where
  | returned (handled : Bool)
  | exited (code : Int)
deriving DecidableEq, Repr

/-- What a call of `handle_builtin_command` leaves behind. -/
structure BuiltinResult where
  events : List Event
  bg_jobs : List Int
  outcome : Outcome
deriving DecidableEq, Repr

/-- The function `handle_builtin_command`.  `main` calls it on commands with
at least one token only; the first clause is there to make the function
total. -/
def handle_builtin_command (os : OS) (bg_jobs : List Int) : List String → BuiltinResult
  | [] => { events := [], bg_jobs := bg_jobs, outcome := Outcome.returned false }
  | first_token :: rest =>
      if first_token = "help" then
        { events := print_usage, bg_jobs := bg_jobs, outcome := Outcome.returned true }
      else if first_token = "exit" then
        let exit_code : Int :=
          match rest with
          | [] => 0
          | code :: _ => os.atoi code
        { events := [Event.proc_exit exit_code], bg_jobs := bg_jobs,
          outcome := Outcome.exited exit_code }
      else if first_token = "pwd" then
        match os.getcwd with
        | Except.ok cwd =>
            { events := [Event.stdout_write (cwd ++ "\n")], bg_jobs := bg_jobs,
              outcome := Outcome.returned true }
        | Except.error e =>
            { events := [perror "getcwd" e], bg_jobs := bg_jobs,
              outcome := Outcome.returned true }
      else if first_token = "cd" then
        let target : Option String :=
          match rest with
          | [] => os.home_env
          | path :: _ => some path
        match target with
        | none =>
            { events := [Event.stderr_write "cd: HOME not set\n"], bg_jobs := bg_jobs,
              outcome := Outcome.returned true }
        | some path =>
            match os.chdir path with
            | none =>
                { events := [Event.chdir path], bg_jobs := bg_jobs,
                  outcome := Outcome.returned true }
            | some e =>
                { events := [Event.chdir path, perror "cd" e], bg_jobs := bg_jobs,
                  outcome := Outcome.returned true }
      else if first_token = "wait" then
        let d := wait_all_bg_jobs os.wait_any bg_jobs
        { events := d.events, bg_jobs := d.bg_jobs, outcome := Outcome.returned true }
      else { events := [], bg_jobs := bg_jobs, outcome := Outcome.returned false }

/-- The body of the read loop of `main` (`cash.c` lines 362-366) for one
command: try the built-ins, launch a process when the command is not one. -/
def dispatch_command (os : OS) (interactive : Bool) (bg_jobs : List Int)
    (tokens : List String) : SpawnResult :=
  if 0 < tokens.length then
    let b := handle_builtin_command os bg_jobs tokens
    match b.outcome with
    | Outcome.exited code =>
        { events := b.events, bg_jobs := b.bg_jobs, ending := Ending.exited code }
    | Outcome.returned true =>
        { events := b.events, bg_jobs := b.bg_jobs, ending := Ending.returned }
    | Outcome.returned false =>
        let r := spawn_process os interactive b.bg_jobs tokens
        { events := b.events ++ r.events, bg_jobs := r.bg_jobs, ending := r.ending }
  else { events := [], bg_jobs := bg_jobs, ending := Ending.returned }

/-! ## A concrete operating system -/

/-- A small system used to evaluate the definitions: `ls` is installed in
`/bin`, nothing else is executable, every allocation succeeds, `fork` gives
`fork_result`, the shell is process group 100 and the child process group
4242. -/
def sample_os (fork_result : Int) : OS :=
  { argv_alloc := true
    path_alloc := fun _ => true
    job_alloc := true
    alloc_error := "Cannot allocate memory"
    path_env := some "/usr/bin:/bin"
    home_env := some "/root"
    environ := ["PATH=/usr/bin:/bin", "HOME=/root"]
    access_x := fun path => decide (path = "/bin/ls")
    fork_result := fork_result
    fork_error := "Resource temporarily unavailable"
    shell_pgrp := 100
    child_pgrp := 4242
    open_file := fun path _ =>
      if path = "missing.txt" then Except.error "No such file or directory" else Except.ok 3
    execve := fun program _ _ =>
      if program = "/bin/ls" then none else some "No such file or directory"
    fg_wait := fork_result
    fg_status := 0
    wait_any := []
    atoi := fun s => s.toInt?.getD 0
    getcwd := Except.ok "/root"
    chdir := fun path =>
      if path = "/does/not/exist" then some "No such file or directory" else none }

/-- The system `sample_os` with an empty entry in the search path and an
executable `/tool` in the root directory. -/
def empty_field_os : OS :=
  { sample_os 1 with
    path_env := some "/usr/bin::/bin"
    access_x := fun path => decide (path = "/tool") }

/-- The system `sample_os` in the shell after a `fork` that gave child 4242,
with no memory left for a registry record. -/
def no_job_memory_os : OS :=
  { sample_os 4242 with job_alloc := false }

end Cash

/-! ## The word-count lists

A Pintos list (`list.h`) is modelled by the `List` of its entries from
`list_begin` to `list_end`: `list_init` gives the empty list, `list_next`
steps to the next entry and `list_push_back` appends at the back.  A pointer
to an entry is the position of the entry in the list.
-/

namespace WordCount

/-- The least value of a C `int` (32 bits, two's complement). -/
def INT_MIN : Int := -2147483648

/-- The greatest value of a C `int`. -/
def INT_MAX : Int := 2147483647

/-- The value an `int` holds after an addition whose exact result is `x`: the
result reduced modulo `2 ^ 32` into the range from `INT_MIN` to `INT_MAX`. -/
def wrap_int (x : Int) : Int :=
  (x + 2147483648) % 4294967296 - 2147483648

/-- The struct `word_count_t`: a word and its count (`word_count.h` is not
among the sources; these are the fields the functions read and write, the
list link `elem` is the position in the list).  The count is a C `int`: a
value from `INT_MIN` to `INT_MAX`, and an addition on it wraps around
(`wrap_int`). -/
structure word_count where
  word : String
  count : Int
deriving DecidableEq, Repr

/-- What an insertion gives back: the list after the call and the returned
entry as its position in that list (`none` is `NULL`). -/
structure AddResult where
  wclist : List word_count
  entry : Option Nat
deriving DecidableEq, Repr

/-- The function `init_words` of `word_count_l.c`: `list_init` makes the list
empty. -/
def init_words : List word_count := []

/-- The function `len_words` of `word_count_l.c`. -/
def len_words : List word_count → Nat
  | [] => 0
  | _ :: rest => len_words rest + 1

/-- The function `find_word` of `word_count_l.c`: the first entry, from the
front, whose word is `word`, as its position. -/
def find_word : List word_count → String → Option Nat
  | [], _ => none
  | e :: rest, word =>
      if e.word = word then some 0
      else (find_word rest word).map (fun i => i + 1)

/-- The assignment `e->count += count` (and, with `count` 1, `e->count++`) on
the entry at position `i`, in `int` arithmetic. -/
def bump (count : Int) : List word_count → Nat → List word_count
  | [], _ => []
  | e :: rest, 0 => { e with count := wrap_int (e.count + count) } :: rest
  | e :: rest, i + 1 => e :: bump count rest i

/-- The function `add_word_with_count` of `word_count_l.c`; `malloc_ok` and
`strdup_ok` say whether the two allocations of the insert branch succeed. -/
def add_word_with_count (malloc_ok strdup_ok : Bool) (wclist : List word_count)
    (word : String) (count : Int) : AddResult :=
  match find_word wclist word with
  | some i => { wclist := bump count wclist i, entry := some i }
  | none =>
      if !malloc_ok then { wclist := wclist, entry := none }
      else if !strdup_ok then { wclist := wclist, entry := none }
      else
        { wclist := wclist ++ [{ word := word, count := count }],
          entry := some wclist.length }

/-- The function `add_word` of `word_count_l.c`. -/
def add_word (malloc_ok strdup_ok : Bool) (wclist : List word_count) (word : String) :
    AddResult :=
  add_word_with_count malloc_ok strdup_ok wclist word 1

/-- The struct `word_count_list_t` of the pthreads build: the list and its
mutex (`true` when held). -/
structure locked_list where
  lst : List word_count
  lock : Bool
deriving DecidableEq, Repr

/-- What `add_word` of `word_count_p.c` gives back. -/
structure LockedAddResult where
  wclist : locked_list
  entry : Option Nat
deriving DecidableEq, Repr

/-- The function `init_words` of `word_count_p.c`. -/
def init_words_p : locked_list := { lst := [], lock := false }

/-- The search loop inside `add_word` of `word_count_p.c` (lines 67-78). -/
def search_p : List word_count → String → Option Nat
  | [], _ => none
  | t :: rest, word =>
      if t.word = word then some 0
      else (search_p rest word).map (fun i => i + 1)

/-- The function `add_word` of `word_count_p.c`, run by one thread on a list
whose mutex is free: the mutex is taken on entry and released on every way
out. -/
def add_word_p (malloc_ok strdup_ok : Bool) (wclist : locked_list) (word : String) :
    LockedAddResult :=
  let held : locked_list := { wclist with lock := true }
  match search_p held.lst word with
  | some i =>
      { wclist := { lst := bump 1 held.lst i, lock := false }, entry := some i }
  | none =>
      if !malloc_ok then { wclist := { held with lock := false }, entry := none }
      else if !strdup_ok then { wclist := { held with lock := false }, entry := none }
      else
        { wclist := { lst := held.lst ++ [{ word := word, count := 1 }], lock := false },
          entry := some held.lst.length }

/-- The calls `add_word(wclist, w)` of `word_count_l.c` for the words `w` of
a sequence, one after another, each on the list the call before left. -/
def add_words (malloc_ok strdup_ok : Bool) (ws : List String) (wclist : List word_count) :
    List word_count :=
  ws.foldl (fun l w => (add_word malloc_ok strdup_ok l w).wclist) wclist

/-- The calls `add_word(wclist, w)` of `word_count_p.c` for the words `w` of
a sequence, one after another, by one thread. -/
def add_words_p (malloc_ok strdup_ok : Bool) (ws : List String) (wclist : locked_list) :
    locked_list :=
  ws.foldl (fun l w => (add_word_p malloc_ok strdup_ok l w).wclist) wclist

/-- The sum of the counts of a list. -/
def total_count (wclist : List word_count) : Int :=
  (wclist.map (fun e => e.count)).sum

/-! ### Printing the counts and reading them back

A stream is the list of the characters still to be read.  The C library
functions `fprintf` and `fscanf` are modelled for the one format each is
called with, in the C locale.
-/

/-- The function `isspace` of the C locale. -/
def is_space (c : Char) : Bool :=
  c = ' ' || c = '\t' || c = '\n' || c = Char.ofNat 11 || c = Char.ofNat 12 || c = '\r'

/-- The character of a decimal digit. -/
def digit_char (d : Nat) : Char := Char.ofNat (48 + d)

/-- The decimal digits of `n`, most significant first; `fuel` bounds the
number of digits. -/
def dec_digits_fuel : Nat → Nat → List Char
  | 0, _ => []
  | fuel + 1, n =>
      if n < 10 then [digit_char n]
      else dec_digits_fuel fuel (n / 10) ++ [digit_char (n % 10)]

/-- The decimal digits of `n`, most significant first (`n` has at most
`n + 1` of them). -/
def dec_digits (n : Nat) : List Char := dec_digits_fuel (n + 1) n

/-- What `%d` prints for `n`. -/
def int_text (n : Int) : List Char :=
  if n < 0 then '-' :: dec_digits n.natAbs else dec_digits n.natAbs

/-- A conversion printed with minimum field width `width`: blanks on the
left up to the width, no truncation. -/
def pad_left (width : Nat) (s : List Char) : List Char :=
  List.replicate (width - s.length) ' ' ++ s

/-- What `fprintf(outfile, "%8d\t%s\n", e->count, e->word)` writes. -/
def print_line (e : word_count) : List Char :=
  pad_left 8 (int_text e.count) ++ '\t' :: (e.word.toList ++ ['\n'])

/-- The function `fprint_words` of `word_count_l.c`: the text written to
`outfile`, one line per entry from the front of the list. -/
def fprint_words : List word_count → List Char
  | [] => []
  | e :: rest => print_line e ++ fprint_words rest

/-- The function `fprint_words` of `word_count_p.c`: the same text, written
with the mutex held, and the list with its mutex released. -/
def fprint_words_p (wclist : locked_list) : List Char × locked_list :=
  (fprint_words wclist.lst, { wclist with lock := false })

/-- A white-space directive of a `scanf` format, and the start of `%d` and
`%s`: any amount of white space is read and dropped. -/
def skip_space (s : List Char) : List Char := s.dropWhile is_space

/-- The value of a sequence of decimal digits. -/
def digits_value (ds : List Char) : Nat :=
  ds.foldl (fun acc c => acc * 10 + (c.toNat - 48)) 0

/-- How a conversion `%d` ends: the stream ended before a character of the
number, the characters do not start a number, or a number was read. -/
inductive ScanInt where
  | input_failure
  | matching_failure (rest : List Char)
  | value (n : Int) (rest : List Char)
deriving DecidableEq, Repr

/-- The conversion `%d` with maximum field width `width`: white space is
skipped, then an optional sign and decimal digits are read, at most `width`
characters in all. -/
def scan_d (width : Nat) (s : List Char) : ScanInt :=
  match skip_space s with
  | [] => ScanInt.input_failure
  | c :: t =>
      let negative : Bool := c = '-'
      let body : List Char := if c = '-' ∨ c = '+' then t else c :: t
      let room : Nat := if c = '-' ∨ c = '+' then width - 1 else width
      let ds := (body.take room).takeWhile Char.isDigit
      if ds = [] then ScanInt.matching_failure body
      else
        ScanInt.value (if negative then -(digits_value ds : Int) else (digits_value ds : Int))
          (body.drop ds.length)

/-- The conversion `%ms`: white space is skipped, then the characters up to
the next white space are read into a fresh string (whose allocation is taken
to succeed); `none` when the stream ends before one. -/
def scan_ms (s : List Char) : Option (String × List Char) :=
  match skip_space s with
  | [] => none
  | c :: t =>
      some (String.mk ((c :: t).takeWhile (fun x => !is_space x)),
        (c :: t).dropWhile (fun x => !is_space x))

/-- How one call `fscanf(count_stream, "%8d\t%ms\n", &count, &word)` ends:
with `EOF` at the end of the stream, with fewer than two items assigned, or
with both. -/
inductive ScanResult where
  | eof
  | matched (items : Nat) (rest : List Char)
  | ok (count : Int) (word : String) (rest : List Char)
deriving DecidableEq, Repr

/-- One call `fscanf(count_stream, "%8d\t%ms\n", &count, &word)` on the
stream `s`. -/
def fscanf_count_word (s : List Char) : ScanResult :=
  match scan_d 8 s with
  | ScanInt.input_failure => ScanResult.eof
  | ScanInt.matching_failure rest => ScanResult.matched 0 rest
  | ScanInt.value count rest =>
      match scan_ms (skip_space rest) with
      | none => ScanResult.matched 1 []
      | some (word, rest2) => ScanResult.ok count word (skip_space rest2)

/-- What `merge_counts` leaves behind: the list, the unread rest of the
stream and what it wrote to standard error. -/
structure MergeResult where
  wclist : List word_count
  rest : List Char
  stderr : List String
deriving DecidableEq, Repr

/-- The loop of `merge_counts` (`fwords.c` lines 23-31) and the test after
it, for at most `fuel` calls of `fscanf`; `none` when they do not suffice.
The stream holds a complete text and reading it does not fail, so when
`fscanf` gives `EOF` the end of the stream is reached (`feof` holds) and
nothing is written. -/
def merge_loop (malloc_ok strdup_ok : Bool) :
    Nat → List word_count → List Char → Option MergeResult
  | 0, _, _ => none
  | fuel + 1, wclist, s =>
      match fscanf_count_word s with
      | ScanResult.ok count word rest =>
          merge_loop malloc_ok strdup_ok fuel
            (add_word_with_count malloc_ok strdup_ok wclist word count).wclist rest
      | ScanResult.eof => some { wclist := wclist, rest := [], stderr := [] }
      | ScanResult.matched items rest =>
          some { wclist := wclist, rest := rest,
                 stderr := ["read ill-formed count (matched " ++ toString items ++ ")\n"] }

/-- The function `merge_counts` of `fwords.c` on the list `wclist` and a
stream holding `text`.  Every call of `fscanf` that assigns both items reads
at least one character, so one call more than the text has characters is
enough (`merge_counts_returns`). -/
def merge_counts (malloc_ok strdup_ok : Bool) (wclist : List word_count) (text : List Char) :
    Option MergeResult :=
  merge_loop malloc_ok strdup_ok (text.length + 1) wclist text

end WordCount

namespace Cash

theorem parse_tokens_from_eq (tokens : List String) :
    ∀ (n i : Nat) (s : LaunchSpec), tokens.length - i = n →
      parse_tokens_from tokens i s = parse_list (tokens.drop i) s := by
  intro n
  induction n using Nat.strong_induction_on with
  | _ n ih =>
    intro i s hn
    rw [parse_tokens_from]
    by_cases h : i < tokens.length
    · have hd : tokens.drop i = tokens[i] :: tokens.drop (i + 1) :=
        List.drop_eq_getElem_cons h
      by_cases h1 : i + 1 < tokens.length
      · have hd1 : tokens.drop (i + 1) = tokens[i + 1] :: tokens.drop (i + 2) :=
          List.drop_eq_getElem_cons h1
        rw [hd, hd1]
        simp only [h, h1, dite_true, and_true, List.get_eq_getElem]
        rw [parse_list]
        by_cases c1 : tokens[i] = "<"
        · simp only [c1, dite_true, if_true]
          exact ih _ (by omega) _ _ rfl
        · by_cases c2 : tokens[i] = ">"
          · simp only [c1, c2, dite_true, dite_false, if_true, if_false]
            exact ih _ (by omega) _ _ rfl
          · by_cases c3 : tokens[i] = "&"
            · simp only [c1, c2, c3, dite_false, if_true, if_false]
              rw [← hd1]
              exact ih _ (by omega) _ _ rfl
            · simp only [c1, c2, c3, dite_false, if_false]
              rw [← hd1]
              exact ih _ (by omega) _ _ rfl
      · have hd1 : tokens.drop (i + 1) = [] := List.drop_of_length_le (by omega)
        rw [hd, hd1]
        simp only [h, h1, dite_true, and_false, dite_false]
        rw [parse_list]
        have e : ∀ t, parse_tokens_from tokens (i + 1) t = t := by
          intro t
          rw [parse_tokens_from]
          simp [h1]
        by_cases c3 : tokens[i] = "&"
        · simp only [c3, if_true]
          exact e _
        · simp only [c3, if_false]
          exact e _
    · have hd : tokens.drop i = [] := List.drop_of_length_le (by omega)
      rw [hd]
      simp [h, parse_list]

theorem parse_tokens_eq (tokens : List String) :
    parse_tokens tokens = parse_list tokens LaunchSpec.init := by
  unfold parse_tokens
  rw [parse_tokens_from_eq tokens _ 0 _ rfl]
  simp

/-! ### The classification pass on commands without operators -/

theorem parse_list_plain (tokens : List String) :
    ∀ s : LaunchSpec, (∀ t ∈ tokens, t ≠ "<" ∧ t ≠ ">" ∧ t ≠ "&") →
      parse_list tokens s = { s with argv := s.argv ++ tokens } := by
  induction tokens with
  | nil => intro s _; simp [parse_list]
  | cons t rest ih =>
    intro s h
    have ht := h t (List.mem_cons_self _ _)
    have hrest : ∀ u ∈ rest, u ≠ "<" ∧ u ≠ ">" ∧ u ≠ "&" :=
      fun u hu => h u (List.mem_cons_of_mem _ hu)
    cases rest with
    | nil => simp [parse_list, ht.2.2]
    | cons next rest2 =>
      rw [parse_list]
      simp only [ht.1, ht.2.1, ht.2.2, if_false]
      rw [ih _ hrest]
      simp

/-! ### The classification pass, position by position -/

theorem last_or_nil (d : Option String) : last_or [] d = d := rfl

theorem last_or_append_singleton (l : List String) (x : String) (d : Option String) :
    last_or (l ++ [x]) d = some x := by
  simp [last_or]

theorem last_or_cons_cons (a b : String) (l : List String) (d : Option String) :
    last_or (a :: b :: l) d = last_or (b :: l) d := by
  simp [last_or, List.getLast?_cons_cons]

theorem last_or_cons (a : String) (l : List String) (d : Option String) :
    last_or (a :: l) d = last_or l (some a) := by
  induction l generalizing a d with
  | nil => simp [last_or]
  | cons b l ih => rw [last_or_cons_cons, ih b d, ih b (some a)]

theorem tokens_with_role_nil (r : TokenRole) : tokens_with_role r [] = [] := by
  simp [tokens_with_role]

theorem tokens_with_role_single (r : TokenRole) (token : String) :
    tokens_with_role r [token] =
      if (if token = "&" then TokenRole.background_marker else TokenRole.plain) = r
      then [token] else [] := by
  by_cases h : token = "&"
  · by_cases hr : TokenRole.background_marker = r <;>
      simp [tokens_with_role, token_roles, h, hr, List.filter_cons]
  · by_cases hr : TokenRole.plain = r <;>
      simp [tokens_with_role, token_roles, h, hr, List.filter_cons]

theorem tokens_with_role_in (r : TokenRole) (next : String) (rest : List String) :
    tokens_with_role r ("<" :: next :: rest) =
      (if TokenRole.in_operator = r then ["<"] else []) ++
        ((if TokenRole.in_operand = r then [next] else []) ++ tokens_with_role r rest) := by
  by_cases h1 : TokenRole.in_operator = r <;> by_cases h2 : TokenRole.in_operand = r <;>
    simp [tokens_with_role, token_roles, h1, h2, List.filter_cons]

theorem tokens_with_role_out (r : TokenRole) (next : String) (rest : List String) :
    tokens_with_role r (">" :: next :: rest) =
      (if TokenRole.out_operator = r then [">"] else []) ++
        ((if TokenRole.out_operand = r then [next] else []) ++ tokens_with_role r rest) := by
  by_cases h1 : TokenRole.out_operator = r <;> by_cases h2 : TokenRole.out_operand = r <;>
    simp [tokens_with_role, token_roles, h1, h2, List.filter_cons]

theorem tokens_with_role_bg (r : TokenRole) (next : String) (rest : List String) :
    tokens_with_role r ("&" :: next :: rest) =
      (if TokenRole.background_marker = r then ["&"] else []) ++
        tokens_with_role r (next :: rest) := by
  by_cases h1 : TokenRole.background_marker = r <;>
    simp [tokens_with_role, token_roles, h1, List.filter_cons]

theorem tokens_with_role_plain (r : TokenRole) (token next : String) (rest : List String)
    (h1 : token ≠ "<") (h2 : token ≠ ">") (h3 : token ≠ "&") :
    tokens_with_role r (token :: next :: rest) =
      (if TokenRole.plain = r then [token] else []) ++
        tokens_with_role r (next :: rest) := by
  by_cases h : TokenRole.plain = r <;>
    simp [tokens_with_role, token_roles, h1, h2, h3, h, List.filter_cons]

/-- The locals after the loop, read off the roles of the positions. -/
theorem parse_list_roles (tokens : List String) (s : LaunchSpec) :
    parse_list tokens s =
      { argv := s.argv ++ tokens_with_role TokenRole.plain tokens,
        input_file := last_or (tokens_with_role TokenRole.in_operand tokens) s.input_file,
        output_file := last_or (tokens_with_role TokenRole.out_operand tokens) s.output_file,
        background :=
          s.background || decide (tokens_with_role TokenRole.background_marker tokens ≠ []) } := by
  induction tokens, s using parse_list.induct with
  | case1 s => simp [parse_list, tokens_with_role_nil, last_or_nil]
  | case2 s => simp [parse_list, tokens_with_role_single, last_or_nil]
  | case3 token s h => simp [parse_list, tokens_with_role_single, last_or_nil, h]
  | case4 next rest s ih =>
    rw [parse_list, if_pos rfl, ih]
    simp [tokens_with_role_in, last_or_cons]
  | case5 next rest s h ih =>
    rw [parse_list, if_neg h, if_pos rfl, ih]
    simp [tokens_with_role_out, last_or_cons]
  | case6 next rest s h1 h2 ih =>
    rw [parse_list, if_neg h1, if_neg h2, if_pos rfl, ih]
    simp [tokens_with_role_bg]
  | case7 token next rest s h1 h2 h3 ih =>
    rw [parse_list, if_neg h1, if_neg h2, if_neg h3, ih]
    simp [tokens_with_role_plain, h1, h2, h3]

/-! ### What reaches program replacement -/

theorem search_path_events (os : OS) (program : String) (dirs : List String) :
    ∀ (k : Nat), ∀ e ∈ (search_path os program dirs k).events,
      ∃ path b, e = Event.access path b := by
  induction dirs with
  | nil => intro k e he; simp [search_path] at he
  | cons dir rest ih =>
    intro k e he
    unfold search_path at he
    by_cases ha : os.path_alloc k = true
    · by_cases hx : os.access_x (dir ++ "/" ++ program) = true
      · simp [ha, hx] at he
        exact ⟨_, _, he⟩
      · simp [ha, hx] at he
        rcases he with he | he
        · exact ⟨_, _, he⟩
        · exact ih _ e he
    · simp [ha] at he

theorem resolve_path_some (os : OS) (program : String) :
    resolve_path os (some program) =
      if '/' ∈ program.toList then
        { result := if os.path_alloc 0 then some program else none, events := [] }
      else
        match os.path_env with
        | none => { result := if os.path_alloc 0 then some program else none, events := [] }
        | some path_env =>
            if os.path_alloc 0 then
              search_path os program
                ((strtok_fields ':' path_env.toList []).map String.mk) 1
            else { result := none, events := [] } := rfl

theorem resolve_path_events (os : OS) (p : Option String) :
    ∀ e ∈ (resolve_path os p).events, ∃ path b, e = Event.access path b := by
  intro e he
  cases p with
  | none => simp [resolve_path] at he
  | some program =>
    rw [resolve_path_some] at he
    by_cases hs : '/' ∈ program.toList
    · rw [if_pos hs] at he
      simp at he
    · rw [if_neg hs] at he
      cases hp : os.path_env with
      | none => simp [hp] at he
      | some path_env =>
        by_cases ha : os.path_alloc 0 = true
        · simp only [hp, ha, if_true] at he
          exact search_path_events _ _ _ _ e he
        · simp [hp, ha] at he

theorem redirect_no_execve (os : OS) (file : Option String) (mode : OpenMode) (target : Int)
    (program : String) (argv envp : List String) :
    Event.execve program argv envp ∉ (redirect os file mode target).1 := by
  unfold redirect
  cases file with
  | none => simp
  | some path =>
    cases h : os.open_file path mode with
    | error e => simp [h, perror]
    | ok fd => simp [h]

theorem spawn_child_execve (os : OS) (interactive : Bool) (spec : LaunchSpec)
    (program p : String) (argv envp : List String)
    (h : Event.execve p argv envp ∈ (spawn_child os interactive spec program).1) :
    p = program ∧ argv = spec.argv ∧ envp = os.environ := by
  have h1 := redirect_no_execve os spec.input_file OpenMode.rdonly STDIN_FILENO p argv envp
  have h2 := redirect_no_execve os spec.output_file (OpenMode.wronly_creat_trunc 0o666)
    STDOUT_FILENO p argv envp
  unfold spawn_child at h
  by_cases c1 : (redirect os spec.input_file OpenMode.rdonly STDIN_FILENO).2 = true
  · by_cases c2 : (redirect os spec.output_file (OpenMode.wronly_creat_trunc 0o666)
        STDOUT_FILENO).2 = true
    · cases c3 : os.execve program spec.argv os.environ with
      | none =>
        simp only [c1, c2, c3, if_true] at h
        by_cases hi : (!spec.background && interactive) = true <;>
          simp [hi, reset_signal_handlers, h1, h2] at h <;> simp [h]
      | some e =>
        simp only [c1, c2, c3, if_true] at h
        by_cases hi : (!spec.background && interactive) = true <;>
          simp [hi, reset_signal_handlers, h1, h2, perror] at h <;> simp [h]
    · simp only [c1, c2, if_true] at h
      by_cases hi : (!spec.background && interactive) = true <;>
        simp [hi, reset_signal_handlers, h1, h2] at h
  · simp only [c1] at h
    by_cases hi : (!spec.background && interactive) = true <;>
      simp [hi, reset_signal_handlers, h1] at h

theorem spawn_parent_no_execve (os : OS) (interactive : Bool) (bg_jobs : List Int)
    (spec : LaunchSpec) (pid : Int) (p : String) (argv envp : List String) :
    Event.execve p argv envp ∉ (spawn_parent os interactive bg_jobs spec pid).1 := by
  unfold spawn_parent add_bg_job
  cases spec.background <;> cases interactive <;> cases os.job_alloc <;> simp [perror]

theorem launch_execve (os : OS) (interactive : Bool) (bg_jobs : List Int) (spec : LaunchSpec)
    (p : String) (argv envp : List String)
    (h : Event.execve p argv envp ∈ (launch os interactive bg_jobs spec).events) :
    argv = spec.argv ∧ envp = os.environ ∧
      (resolve_path os spec.argv.head?).result = some p := by
  unfold launch at h
  cases hargv : spec.argv with
  | nil => simp [hargv] at h
  | cons arg0 rest =>
    have hr : ∀ e ∈ (resolve_path os (some arg0)).events, ∃ path b, e = Event.access path b :=
      resolve_path_events os (some arg0)
    have hne : Event.execve p argv envp ∉ (resolve_path os (some arg0)).events := by
      intro hm
      obtain ⟨path, b, hb⟩ := hr _ hm
      cases hb
    simp only [hargv] at h
    cases hres : (resolve_path os (some arg0)).result with
    | none => simp [hres, hne] at h
    | some program =>
      simp only [hres] at h
      by_cases f1 : os.fork_result < 0
      · simp [f1, hne, perror] at h
      · by_cases f2 : os.fork_result = 0
        · rw [if_neg f1, if_pos f2] at h
          simp only [List.mem_append, hne, false_or, List.mem_singleton] at h
          rcases h with h | h
          · cases h
          · have := spawn_child_execve os interactive spec program p argv envp h
            simp [this.1, this.2.1, this.2.2, hargv, hres]
        · rw [if_neg f1, if_neg f2] at h
          simp only [List.mem_append, hne, false_or, List.mem_singleton] at h
          rcases h with h | h
          · cases h
          · exact absurd h (spawn_parent_no_execve _ _ _ _ _ _ _ _)

theorem parse_tokens_plain (tokens : List String)
    (h : ∀ t ∈ tokens, t ≠ "<" ∧ t ≠ ">" ∧ t ≠ "&") :
    parse_tokens tokens =
      { argv := tokens, input_file := none, output_file := none, background := false } := by
  rw [parse_tokens_eq, parse_list_plain tokens _ h]
  simp [LaunchSpec.init]

theorem spawn_process_launch (os : OS) (interactive : Bool) (bg_jobs : List Int)
    (tokens : List String) (hne : tokens ≠ []) (ha : os.argv_alloc = true) :
    spawn_process os interactive bg_jobs tokens =
      launch os interactive bg_jobs (parse_tokens tokens) := by
  unfold spawn_process
  have hl : tokens.length ≠ 0 := by
    intro h0
    exact hne (List.length_eq_zero.mp h0)
  simp [hl, ha]

/-- The function `spawn_process` with the parse loop in its list form, which
evaluates by unfolding. -/
theorem spawn_process_eval (os : OS) (interactive : Bool) (bg_jobs : List Int)
    (tokens : List String) :
    spawn_process os interactive bg_jobs tokens =
      if tokens.length = 0 then
        { events := [], bg_jobs := bg_jobs, ending := Ending.returned }
      else if !os.argv_alloc then
        { events := [perror "malloc" os.alloc_error], bg_jobs := bg_jobs,
          ending := Ending.returned }
      else launch os interactive bg_jobs (parse_list tokens LaunchSpec.init) := by
  unfold spawn_process
  rw [parse_tokens_eq]

theorem spawn_process_execve (os : OS) (interactive : Bool) (bg_jobs : List Int)
    (tokens : List String) (p : String) (argv envp : List String)
    (h : Event.execve p argv envp ∈ (spawn_process os interactive bg_jobs tokens).events) :
    argv = (parse_tokens tokens).argv ∧ envp = os.environ ∧
      (resolve_path os (parse_tokens tokens).argv.head?).result = some p := by
  unfold spawn_process at h
  by_cases h0 : tokens.length = 0
  · simp [h0] at h
  · by_cases ha : os.argv_alloc = true
    · simp only [h0, ha, if_false, Bool.not_true] at h
      exact launch_execve _ _ _ _ _ _ _ h
    · simp [h0, ha, perror] at h

theorem spawn_child_plain (os : OS) (interactive : Bool) (argv : List String)
    (program : String) :
    Event.execve program argv os.environ ∈
      (spawn_child os interactive
        { argv := argv, input_file := none, output_file := none, background := false }
        program).1 := by
  unfold spawn_child
  cases he : os.execve program argv os.environ with
  | none => simp [redirect, he]
  | some e => simp [redirect, he]

/-- C1: for a command whose tokens contain none of `<`, `>`, `&`, the parse
loop of `spawn_process` leaves `argv` equal to the token sequence (same
length, same order, `argv[0]` the first token) with no input file, no output
file and `background` false; every `execve` the call performs is handed
exactly this vector, and the child does reach `execve` with it once the
allocations succeeded and `fork` returned 0. -/
theorem C1_plain_command_argv (os : OS) (interactive : Bool) (bg_jobs : List Int)
    (tokens : List String) (h : ∀ t ∈ tokens, t ≠ "<" ∧ t ≠ ">" ∧ t ≠ "&") :
    parse_tokens tokens =
        { argv := tokens, input_file := none, output_file := none, background := false } ∧
      (parse_tokens tokens).argv.length = tokens.length ∧
      (parse_tokens tokens).argv.head? = tokens.head? ∧
      (∀ (p : String) (argv envp : List String),
        Event.execve p argv envp ∈ (spawn_process os interactive bg_jobs tokens).events →
          argv = tokens ∧ envp = os.environ ∧
            (resolve_path os tokens.head?).result = some p) ∧
      (∀ program : String, tokens ≠ [] → os.argv_alloc = true →
        (resolve_path os tokens.head?).result = some program → os.fork_result = 0 →
          Event.execve program tokens os.environ ∈
            (spawn_process os interactive bg_jobs tokens).events ∧
          (spawn_process os interactive bg_jobs tokens).bg_jobs = bg_jobs) := by
  have hp := parse_tokens_plain tokens h
  refine ⟨hp, by rw [hp], by rw [hp], ?_, ?_⟩
  · intro p argv envp hm
    have := spawn_process_execve os interactive bg_jobs tokens p argv envp hm
    rw [hp] at this
    exact this
  · intro program hne ha hres hf
    rw [spawn_process_launch os interactive bg_jobs tokens hne ha, hp]
    cases tokens with
    | nil => exact absurd rfl hne
    | cons arg0 rest =>
      simp only [List.head?_cons] at hres
      unfold launch
      simp only [hres, hf, lt_self_iff_false, if_false, if_true]
      constructor
      · apply List.mem_append_right
        exact spawn_child_plain os interactive (arg0 :: rest) program
      · trivial

theorem C1_plain_command_argv_witness :
    parse_tokens ["ls", "-l"] =
        { argv := ["ls", "-l"], input_file := none, output_file := none,
          background := false } ∧
      Event.execve "/bin/ls" ["ls", "-l"] (sample_os 0).environ ∈
        (spawn_process (sample_os 0) true [] ["ls", "-l"]).events :=
  ⟨(C1_plain_command_argv (sample_os 0) true [] ["ls", "-l"] (by decide)).1,
    ((C1_plain_command_argv (sample_os 0) true [] ["ls", "-l"] (by decide)).2.2.2.2
      "/bin/ls" (by decide) rfl (by decide) rfl).1⟩

/-! ### Repeated redirections -/

theorem token_roles_length (tokens : List String) :
    (token_roles tokens).length = tokens.length := by
  induction tokens using token_roles.induct with
  | case1 => simp [token_roles]
  | case2 => simp [token_roles]
  | case3 token h => simp [token_roles, h]
  | case4 next rest ih => simp [token_roles, ih]
  | case5 next rest h ih => simp [token_roles, ih]
  | case6 next rest h1 h2 ih =>
    rw [token_roles, if_neg h1, if_neg h2, if_pos rfl]
    simp [ih]
  | case7 token next rest h1 h2 h3 ih =>
    rw [token_roles, if_neg h1, if_neg h2, if_neg h3]
    simp [ih]

/-- A position handled by a redirect branch holds the operator and is
followed by the position of its operand. -/
theorem token_roles_operator (tokens : List String) :
    ∀ i : Nat,
      ((token_roles tokens)[i]? = some TokenRole.in_operator →
        tokens[i]? = some "<" ∧ (token_roles tokens)[i + 1]? = some TokenRole.in_operand) ∧
      ((token_roles tokens)[i]? = some TokenRole.out_operator →
        tokens[i]? = some ">" ∧ (token_roles tokens)[i + 1]? = some TokenRole.out_operand) := by
  induction tokens using token_roles.induct with
  | case1 => intro i; simp [token_roles]
  | case2 =>
    intro i
    cases i <;> simp [token_roles]
  | case3 token h =>
    intro i
    cases i <;> simp [token_roles, h]
  | case4 next rest ih =>
    intro i
    rw [token_roles, if_pos rfl]
    match i with
    | 0 => simp
    | 1 => simp
    | j + 2 => simpa using ih j
  | case5 next rest h ih =>
    intro i
    rw [token_roles, if_neg h, if_pos rfl]
    match i with
    | 0 => simp
    | 1 => simp
    | j + 2 => simpa using ih j
  | case6 next rest h1 h2 ih =>
    intro i
    rw [token_roles, if_neg h1, if_neg h2, if_pos rfl]
    match i with
    | 0 => simp
    | j + 1 => simpa using ih j
  | case7 token next rest h1 h2 h3 ih =>
    intro i
    rw [token_roles, if_neg h1, if_neg h2, if_neg h3]
    match i with
    | 0 => simp
    | j + 1 => simpa using ih j

theorem token_roles_in_eq (next : String) (rest : List String) :
    token_roles ("<" :: next :: rest) =
      TokenRole.in_operator :: TokenRole.in_operand :: token_roles rest := by
  rw [token_roles, if_pos rfl]

theorem token_roles_out_eq (next : String) (rest : List String) :
    token_roles (">" :: next :: rest) =
      TokenRole.out_operator :: TokenRole.out_operand :: token_roles rest := by
  rw [token_roles, if_neg (by decide), if_pos rfl]

theorem token_roles_bg_eq (next : String) (rest : List String) :
    token_roles ("&" :: next :: rest) =
      TokenRole.background_marker :: token_roles (next :: rest) := by
  rw [token_roles, if_neg (by decide), if_neg (by decide), if_pos rfl]

theorem token_roles_plain_eq (token next : String) (rest : List String)
    (h1 : token ≠ "<") (h2 : token ≠ ">") (h3 : token ≠ "&") :
    token_roles (token :: next :: rest) = TokenRole.plain :: token_roles (next :: rest) := by
  rw [token_roles, if_neg h1, if_neg h2, if_neg h3]

theorem parse_list_in_eq (next : String) (rest : List String) (s : LaunchSpec) :
    parse_list ("<" :: next :: rest) s =
      parse_list rest { s with input_file := some next } := by
  rw [parse_list, if_pos rfl]

theorem parse_list_out_eq (next : String) (rest : List String) (s : LaunchSpec) :
    parse_list (">" :: next :: rest) s =
      parse_list rest { s with output_file := some next } := by
  rw [parse_list, if_neg (by decide), if_pos rfl]

theorem parse_list_bg_eq (next : String) (rest : List String) (s : LaunchSpec) :
    parse_list ("&" :: next :: rest) s =
      parse_list (next :: rest) { s with background := true } := by
  rw [parse_list, if_neg (by decide), if_neg (by decide), if_pos rfl]

theorem parse_list_plain_eq (token next : String) (rest : List String) (s : LaunchSpec)
    (h1 : token ≠ "<") (h2 : token ≠ ">") (h3 : token ≠ "&") :
    parse_list (token :: next :: rest) s =
      parse_list (next :: rest) { s with argv := s.argv ++ [token] } := by
  rw [parse_list, if_neg h1, if_neg h2, if_neg h3]

theorem parse_list_nil_eq (s : LaunchSpec) : parse_list [] s = s := by
  rw [parse_list]

theorem parse_list_single_bg (s : LaunchSpec) :
    parse_list ["&"] s = { s with background := true } := by
  rw [parse_list, if_pos rfl]

theorem parse_list_single_plain (token : String) (s : LaunchSpec) (h : token ≠ "&") :
    parse_list [token] s = { s with argv := s.argv ++ [token] } := by
  rw [parse_list, if_neg h]

theorem operators_apart_tail (t : String) (rest : List String)
    (h : operators_apart (t :: rest)) : operators_apart rest := by
  intro i hi
  have := h (i + 1) (by simpa using hi)
  simpa using this

/-- When no operator token directly follows another, the loop takes a redirect
branch exactly at the positions that hold the operator and are not the last
one. -/
theorem token_roles_textual (tokens : List String) :
    operators_apart tokens → ∀ i : Nat,
      ((token_roles tokens)[i]? = some TokenRole.in_operator ↔
        tokens[i]? = some "<" ∧ i + 1 < tokens.length) ∧
      ((token_roles tokens)[i]? = some TokenRole.out_operator ↔
        tokens[i]? = some ">" ∧ i + 1 < tokens.length) := by
  induction tokens using token_roles.induct with
  | case1 => intro _ i; simp [token_roles]
  | case2 =>
    intro _ i
    cases i <;> simp [token_roles]
  | case3 token h =>
    intro _ i
    cases i <;> simp [token_roles, h]
  | case4 next rest ih =>
    intro hwf i
    have h0 := hwf 0 (Or.inl rfl)
    simp at h0
    have hrest := operators_apart_tail _ _ (operators_apart_tail _ _ hwf)
    rw [token_roles_in_eq]
    match i with
    | 0 => simp
    | 1 => simp [h0]
    | j + 2 =>
      have e : j + 2 < rest.length + 1 ↔ j + 1 < rest.length := by omega
      simpa [e] using ih hrest j
  | case5 next rest h ih =>
    intro hwf i
    have h0 := hwf 0 (Or.inr rfl)
    simp at h0
    have hrest := operators_apart_tail _ _ (operators_apart_tail _ _ hwf)
    rw [token_roles_out_eq]
    match i with
    | 0 => simp
    | 1 => simp [h0]
    | j + 2 =>
      have e : j + 2 < rest.length + 1 ↔ j + 1 < rest.length := by omega
      simpa [e] using ih hrest j
  | case6 next rest h1 h2 ih =>
    intro hwf i
    have hrest := operators_apart_tail _ _ hwf
    rw [token_roles_bg_eq]
    match i with
    | 0 => simp
    | j + 1 => simpa using ih hrest j
  | case7 token next rest h1 h2 h3 ih =>
    intro hwf i
    have hrest := operators_apart_tail _ _ hwf
    rw [token_roles_plain_eq _ _ _ h1 h2 h3]
    match i with
    | 0 => simp [h1, h2]
    | j + 1 => simpa using ih hrest j

theorem last_or_none (l : List String) : last_or l none = l.getLast? := by
  unfold last_or
  cases l.getLast? <;> rfl

theorem parse_tokens_roles (tokens : List String) :
    parse_tokens tokens =
      { argv := tokens_with_role TokenRole.plain tokens,
        input_file := (tokens_with_role TokenRole.in_operand tokens).getLast?,
        output_file := (tokens_with_role TokenRole.out_operand tokens).getLast?,
        background := decide (tokens_with_role TokenRole.background_marker tokens ≠ []) } := by
  rw [parse_tokens_eq, parse_list_roles]
  simp [LaunchSpec.init, last_or_none]

/-- The first token of a command is never read as an operand. -/
theorem token_roles_first (tokens : List String) :
    (token_roles tokens)[0]? ≠ some TokenRole.in_operand ∧
      (token_roles tokens)[0]? ≠ some TokenRole.out_operand := by
  induction tokens using token_roles.induct with
  | case1 => simp [token_roles]
  | case2 => simp [token_roles]
  | case3 token h => simp [token_roles, h]
  | case4 next rest ih => rw [token_roles_in_eq]; simp
  | case5 next rest h ih => rw [token_roles_out_eq]; simp
  | case6 next rest h1 h2 ih => rw [token_roles_bg_eq]; simp
  | case7 token next rest h1 h2 h3 ih => rw [token_roles_plain_eq _ _ _ h1 h2 h3]; simp

/-- A token is read as an operand exactly when the token before it is read as
the operator of a redirect branch. -/
theorem token_roles_operand (tokens : List String) :
    ∀ i : Nat,
      ((token_roles tokens)[i + 1]? = some TokenRole.in_operand ↔
        (token_roles tokens)[i]? = some TokenRole.in_operator) ∧
      ((token_roles tokens)[i + 1]? = some TokenRole.out_operand ↔
        (token_roles tokens)[i]? = some TokenRole.out_operator) := by
  induction tokens using token_roles.induct with
  | case1 => intro i; simp [token_roles]
  | case2 =>
    intro i
    cases i <;> simp [token_roles]
  | case3 token h =>
    intro i
    cases i <;> simp [token_roles, h]
  | case4 next rest ih =>
    intro i
    have hf := token_roles_first rest
    rw [token_roles_in_eq]
    match i with
    | 0 => simp
    | 1 => simpa using hf
    | j + 2 => simpa using ih j
  | case5 next rest h ih =>
    intro i
    have hf := token_roles_first rest
    rw [token_roles_out_eq]
    match i with
    | 0 => simp
    | 1 => simpa using hf
    | j + 2 => simpa using ih j
  | case6 next rest h1 h2 ih =>
    intro i
    have hf := token_roles_first (next :: rest)
    rw [token_roles_bg_eq]
    match i with
    | 0 => simpa using hf
    | j + 1 => simpa using ih j
  | case7 token next rest h1 h2 h3 ih =>
    intro i
    have hf := token_roles_first (next :: rest)
    rw [token_roles_plain_eq _ _ _ h1 h2 h3]
    match i with
    | 0 => simpa using hf
    | j + 1 => simpa using ih j

/-- A token that is not read as an operand is classified by its own text and
by whether a token follows it, with the tests of the loop in their order. -/
theorem token_roles_text (tokens : List String) :
    ∀ (i : Nat) (t : String), tokens[i]? = some t →
      (token_roles tokens)[i]? = some TokenRole.in_operand ∨
      (token_roles tokens)[i]? = some TokenRole.out_operand ∨
      (token_roles tokens)[i]? = some
        (if t = "<" ∧ i + 1 < tokens.length then TokenRole.in_operator
         else if t = ">" ∧ i + 1 < tokens.length then TokenRole.out_operator
         else if t = "&" then TokenRole.background_marker
         else TokenRole.plain) := by
  induction tokens using token_roles.induct with
  | case1 => intro i t h; simp at h
  | case2 =>
    intro i t h
    match i with
    | 0 =>
      simp at h
      subst h
      right; right
      simp [token_roles]
    | j + 1 => simp at h
  | case3 token hne =>
    intro i t h
    match i with
    | 0 =>
      simp at h
      subst h
      right; right
      simp [token_roles, hne]
    | j + 1 => simp at h
  | case4 next rest ih =>
    intro i t h
    rw [token_roles_in_eq]
    match i with
    | 0 =>
      simp at h
      subst h
      right; right
      simp
    | 1 => left; simp
    | j + 2 =>
      have h2 : rest[j]? = some t := by simpa using h
      have e : j + 2 < rest.length + 1 ↔ j + 1 < rest.length := by omega
      simpa [e] using ih j t h2
  | case5 next rest hne ih =>
    intro i t h
    rw [token_roles_out_eq]
    match i with
    | 0 =>
      simp at h
      subst h
      right; right
      simp
    | 1 => right; left; simp
    | j + 2 =>
      have h2 : rest[j]? = some t := by simpa using h
      have e : j + 2 < rest.length + 1 ↔ j + 1 < rest.length := by omega
      simpa [e] using ih j t h2
  | case6 next rest h1 h2 ih =>
    intro i t h
    rw [token_roles_bg_eq]
    match i with
    | 0 =>
      simp at h
      subst h
      right; right
      simp
    | j + 1 =>
      have h2 : (next :: rest)[j]? = some t := by simpa using h
      have e : j + 1 + 1 < ("&" :: next :: rest).length ↔ j + 1 < (next :: rest).length := by
        simp only [List.length_cons]; omega
      simpa [e] using ih j t h2
  | case7 token next rest h1 h2 h3 ih =>
    intro i t h
    rw [token_roles_plain_eq _ _ _ h1 h2 h3]
    match i with
    | 0 =>
      simp at h
      subst h
      right; right
      simp [h1, h2, h3]
    | j + 1 =>
      have h2 : (next :: rest)[j]? = some t := by simpa using h
      have e : j + 1 + 1 < (token :: next :: rest).length ↔ j + 1 < (next :: rest).length := by
        simp only [List.length_cons]; omega
      simpa [e] using ih j t h2

/-- A command in which the loop never takes a redirect branch of one kind
leaves the path of that kind as it was. -/
theorem parse_list_no_operator (tokens : List String) :
    ∀ s : LaunchSpec,
      ((∀ j : Nat, (token_roles tokens)[j]? ≠ some TokenRole.in_operator) →
        (parse_list tokens s).input_file = s.input_file) ∧
      ((∀ j : Nat, (token_roles tokens)[j]? ≠ some TokenRole.out_operator) →
        (parse_list tokens s).output_file = s.output_file) := by
  induction tokens using token_roles.induct with
  | case1 => intro s; simp [parse_list_nil_eq]
  | case2 => intro s; simp [parse_list_single_bg]
  | case3 token h => intro s; simp [parse_list_single_plain _ _ h]
  | case4 next rest ih =>
    intro s
    rw [token_roles_in_eq, parse_list_in_eq]
    refine ⟨fun hno => absurd (by simp) (hno 0), fun hno => ?_⟩
    rw [(ih _).2 (fun j => by simpa using hno (j + 2))]
  | case5 next rest h ih =>
    intro s
    rw [token_roles_out_eq, parse_list_out_eq]
    refine ⟨fun hno => ?_, fun hno => absurd (by simp) (hno 0)⟩
    rw [(ih _).1 (fun j => by simpa using hno (j + 2))]
  | case6 next rest h1 h2 ih =>
    intro s
    rw [token_roles_bg_eq, parse_list_bg_eq]
    refine ⟨fun hno => ?_, fun hno => ?_⟩
    · rw [(ih _).1 (fun j => by simpa using hno (j + 1))]
    · rw [(ih _).2 (fun j => by simpa using hno (j + 1))]
  | case7 token next rest h1 h2 h3 ih =>
    intro s
    rw [token_roles_plain_eq _ _ _ h1 h2 h3, parse_list_plain_eq _ _ _ _ h1 h2 h3]
    refine ⟨fun hno => ?_, fun hno => ?_⟩
    · rw [(ih _).1 (fun j => by simpa using hno (j + 1))]
    · rw [(ih _).2 (fun j => by simpa using hno (j + 1))]

/-- The path of a kind ends as the token after the last position at which the
loop takes the redirect branch of that kind. -/
theorem parse_list_last_operator (tokens : List String) :
    ∀ (s : LaunchSpec) (i : Nat),
      ((token_roles tokens)[i]? = some TokenRole.in_operator →
        (∀ j : Nat, i < j → (token_roles tokens)[j]? ≠ some TokenRole.in_operator) →
        (parse_list tokens s).input_file = tokens[i + 1]?) ∧
      ((token_roles tokens)[i]? = some TokenRole.out_operator →
        (∀ j : Nat, i < j → (token_roles tokens)[j]? ≠ some TokenRole.out_operator) →
        (parse_list tokens s).output_file = tokens[i + 1]?) := by
  induction tokens using token_roles.induct with
  | case1 => intro s i; simp [token_roles]
  | case2 =>
    intro s i
    cases i <;> simp [token_roles]
  | case3 token h =>
    intro s i
    cases i <;> simp [token_roles, h]
  | case4 next rest ih =>
    intro s i
    rw [token_roles_in_eq, parse_list_in_eq]
    match i with
    | 0 =>
      refine ⟨fun _ hlast => ?_, fun h => by simp at h⟩
      rw [(parse_list_no_operator rest _).1
        (fun j => by simpa using hlast (j + 2) (by omega))]
      simp
    | 1 => simp
    | k + 2 =>
      refine ⟨fun h hlast => ?_, fun h hlast => ?_⟩
      · rw [(ih _ k).1 (by simpa using h)
          (fun j hj => by simpa using hlast (j + 2) (by omega))]
        simp
      · rw [(ih _ k).2 (by simpa using h)
          (fun j hj => by simpa using hlast (j + 2) (by omega))]
        simp
  | case5 next rest hne ih =>
    intro s i
    rw [token_roles_out_eq, parse_list_out_eq]
    match i with
    | 0 =>
      refine ⟨fun h => by simp at h, fun _ hlast => ?_⟩
      rw [(parse_list_no_operator rest _).2
        (fun j => by simpa using hlast (j + 2) (by omega))]
      simp
    | 1 => simp
    | k + 2 =>
      refine ⟨fun h hlast => ?_, fun h hlast => ?_⟩
      · rw [(ih _ k).1 (by simpa using h)
          (fun j hj => by simpa using hlast (j + 2) (by omega))]
        simp
      · rw [(ih _ k).2 (by simpa using h)
          (fun j hj => by simpa using hlast (j + 2) (by omega))]
        simp
  | case6 next rest h1 h2 ih =>
    intro s i
    rw [token_roles_bg_eq, parse_list_bg_eq]
    match i with
    | 0 => simp
    | k + 1 =>
      refine ⟨fun h hlast => ?_, fun h hlast => ?_⟩
      · rw [(ih _ k).1 (by simpa using h)
          (fun j hj => by simpa using hlast (j + 1) (by omega))]
        simp
      · rw [(ih _ k).2 (by simpa using h)
          (fun j hj => by simpa using hlast (j + 1) (by omega))]
        simp
  | case7 token next rest h1 h2 h3 ih =>
    intro s i
    rw [token_roles_plain_eq _ _ _ h1 h2 h3, parse_list_plain_eq _ _ _ _ h1 h2 h3]
    match i with
    | 0 => simp
    | k + 1 =>
      refine ⟨fun h hlast => ?_, fun h hlast => ?_⟩
      · rw [(ih _ k).1 (by simpa using h)
          (fun j hj => by simpa using hlast (j + 1) (by omega))]
        simp
      · rw [(ih _ k).2 (by simpa using h)
          (fun j hj => by simpa using hlast (j + 1) (by omega))]
        simp

/-- C2 (as amended): an occurrence of the operator `<` (respectively `>`) with
an operand is a position at which the parse loop takes the input-redirect
(respectively output-redirect) branch.  Which positions these are is fixed by
the token text: the first token is never an operand, a token is an operand
exactly when the token before it is taken as an operator, and a token that is
not an operand is taken as `<` (respectively `>`) exactly when it is that
operator and a token follows it; when no operator token directly follows
another these are exactly the positions that hold the operator and are not the
last one.  However often that happens, `input_file` (respectively
`output_file`) ends as the token after the last such occurrence and the
operands of the earlier ones are gone, and with no such occurrence the path
stays unset; `argv` is exactly the tokens handled by the final `else`, in
order, so no token taken as an operator or as an operand is in it.  On
`cmd < a.txt < b.txt` the input path is `b.txt` and `argv` is `[cmd]`. -/
theorem C2_last_redirect_wins (tokens : List String) :
    (token_roles tokens).length = tokens.length ∧
      ((token_roles tokens)[0]? ≠ some TokenRole.in_operand ∧
        (token_roles tokens)[0]? ≠ some TokenRole.out_operand) ∧
      (∀ i : Nat,
        ((token_roles tokens)[i + 1]? = some TokenRole.in_operand ↔
          (token_roles tokens)[i]? = some TokenRole.in_operator) ∧
        ((token_roles tokens)[i + 1]? = some TokenRole.out_operand ↔
          (token_roles tokens)[i]? = some TokenRole.out_operator)) ∧
      (∀ (i : Nat) (t : String), tokens[i]? = some t →
        (token_roles tokens)[i]? = some TokenRole.in_operand ∨
        (token_roles tokens)[i]? = some TokenRole.out_operand ∨
        (token_roles tokens)[i]? = some
          (if t = "<" ∧ i + 1 < tokens.length then TokenRole.in_operator
           else if t = ">" ∧ i + 1 < tokens.length then TokenRole.out_operator
           else if t = "&" then TokenRole.background_marker
           else TokenRole.plain)) ∧
      (∀ i : Nat,
        ((token_roles tokens)[i]? = some TokenRole.in_operator →
          tokens[i]? = some "<" ∧
            (token_roles tokens)[i + 1]? = some TokenRole.in_operand) ∧
        ((token_roles tokens)[i]? = some TokenRole.out_operator →
          tokens[i]? = some ">" ∧
            (token_roles tokens)[i + 1]? = some TokenRole.out_operand)) ∧
      (operators_apart tokens → ∀ i : Nat,
        ((token_roles tokens)[i]? = some TokenRole.in_operator ↔
          tokens[i]? = some "<" ∧ i + 1 < tokens.length) ∧
        ((token_roles tokens)[i]? = some TokenRole.out_operator ↔
          tokens[i]? = some ">" ∧ i + 1 < tokens.length)) ∧
      (∀ i : Nat, (token_roles tokens)[i]? = some TokenRole.in_operator →
        (∀ j : Nat, i < j → (token_roles tokens)[j]? ≠ some TokenRole.in_operator) →
        i + 1 < tokens.length ∧ (parse_tokens tokens).input_file = tokens[i + 1]?) ∧
      (∀ i : Nat, (token_roles tokens)[i]? = some TokenRole.out_operator →
        (∀ j : Nat, i < j → (token_roles tokens)[j]? ≠ some TokenRole.out_operator) →
        i + 1 < tokens.length ∧ (parse_tokens tokens).output_file = tokens[i + 1]?) ∧
      ((∀ j : Nat, (token_roles tokens)[j]? ≠ some TokenRole.in_operator) →
        (parse_tokens tokens).input_file = none) ∧
      ((∀ j : Nat, (token_roles tokens)[j]? ≠ some TokenRole.out_operator) →
        (parse_tokens tokens).output_file = none) ∧
      (operators_apart tokens → ∀ i : Nat,
        (tokens[i]? = some "<" → i + 1 < tokens.length →
          (∀ j : Nat, i < j → j + 1 < tokens.length → tokens[j]? ≠ some "<") →
          (parse_tokens tokens).input_file = tokens[i + 1]?) ∧
        (tokens[i]? = some ">" → i + 1 < tokens.length →
          (∀ j : Nat, i < j → j + 1 < tokens.length → tokens[j]? ≠ some ">") →
          (parse_tokens tokens).output_file = tokens[i + 1]?)) ∧
      (parse_tokens tokens).input_file =
        (tokens_with_role TokenRole.in_operand tokens).getLast? ∧
      (parse_tokens tokens).output_file =
        (tokens_with_role TokenRole.out_operand tokens).getLast? ∧
      (parse_tokens tokens).argv = tokens_with_role TokenRole.plain tokens ∧
      token_roles ["cmd", "<", "a.txt", "<", "b.txt"] =
        [TokenRole.plain, TokenRole.in_operator, TokenRole.in_operand,
          TokenRole.in_operator, TokenRole.in_operand] ∧
      parse_tokens ["cmd", "<", "a.txt", "<", "b.txt"] =
        { argv := ["cmd"], input_file := some "b.txt", output_file := none,
          background := false } := by
  have hlen := token_roles_length tokens
  have hbound : ∀ (i : Nat) (r : TokenRole),
      (token_roles tokens)[i + 1]? = some r → i + 1 < tokens.length := by
    intro i r h
    rw [← hlen]
    exact (List.getElem?_eq_some_iff.mp h).1
  refine ⟨hlen, token_roles_first tokens, token_roles_operand tokens, token_roles_text tokens,
    token_roles_operator tokens, token_roles_textual tokens, ?_, ?_, ?_, ?_, ?_,
    ?_, ?_, ?_, by decide, ?_⟩
  · intro i h hlast
    refine ⟨hbound i _ ((token_roles_operator tokens i).1 h).2, ?_⟩
    rw [parse_tokens_eq]
    exact (parse_list_last_operator tokens _ i).1 h hlast
  · intro i h hlast
    refine ⟨hbound i _ ((token_roles_operator tokens i).2 h).2, ?_⟩
    rw [parse_tokens_eq]
    exact (parse_list_last_operator tokens _ i).2 h hlast
  · intro hno
    rw [parse_tokens_eq, (parse_list_no_operator tokens _).1 hno]
    rfl
  · intro hno
    rw [parse_tokens_eq, (parse_list_no_operator tokens _).2 hno]
    rfl
  · intro hwf i
    have htx := token_roles_textual tokens hwf
    refine ⟨fun h hi hlast => ?_, fun h hi hlast => ?_⟩
    · rw [parse_tokens_eq]
      refine (parse_list_last_operator tokens _ i).1 ((htx i).1.mpr ⟨h, hi⟩) ?_
      intro j hj hr
      have := (htx j).1.mp hr
      exact hlast j hj this.2 this.1
    · rw [parse_tokens_eq]
      refine (parse_list_last_operator tokens _ i).2 ((htx i).2.mpr ⟨h, hi⟩) ?_
      intro j hj hr
      have := (htx j).2.mp hr
      exact hlast j hj this.2 this.1
  · rw [parse_tokens_roles]
  · rw [parse_tokens_roles]
  · rw [parse_tokens_roles]
  · rw [parse_tokens_eq]
    decide

theorem C2_last_redirect_wins_witness :
    (parse_tokens ["sort", "<", "a.txt", ">", "x.txt", "-r", "<", "b.txt", ">", "y.txt"]).input_file
        = some "b.txt" ∧
      (parse_tokens ["sort", "<", "a.txt", ">", "x.txt", "-r", "<", "b.txt", ">", "y.txt"]).output_file
        = some "y.txt" ∧
      (parse_tokens ["sort", "<", "a.txt", ">", "x.txt", "-r", "<", "b.txt", ">", "y.txt"]).argv
        = ["sort", "-r"] := by
  have h := C2_last_redirect_wins
    ["sort", "<", "a.txt", ">", "x.txt", "-r", "<", "b.txt", ">", "y.txt"]
  have hroles : token_roles
      ["sort", "<", "a.txt", ">", "x.txt", "-r", "<", "b.txt", ">", "y.txt"] =
      [TokenRole.plain, TokenRole.in_operator, TokenRole.in_operand, TokenRole.out_operator,
        TokenRole.out_operand, TokenRole.plain, TokenRole.in_operator, TokenRole.in_operand,
        TokenRole.out_operator, TokenRole.out_operand] := by decide
  have hin := h.2.2.2.2.2.2.1 6 (by rw [hroles]; rfl) (by
    intro j hj
    rw [hroles]
    match j, hj with
    | 7, _ => decide
    | 8, _ => decide
    | 9, _ => decide
    | k + 10, _ => simp)
  have hout := h.2.2.2.2.2.2.2.1 8 (by rw [hroles]; rfl) (by
    intro j hj
    rw [hroles]
    match j, hj with
    | 9, _ => decide
    | k + 10, _ => simp)
  refine ⟨hin.2.trans (by decide), hout.2.trans (by decide),
    h.2.2.2.2.2.2.2.2.2.2.2.2.2.1.trans (by decide)⟩

/-- C2 (as stated) fails when the operator is read by its text.  In
`cmd < < b.txt` the operator `<` occurs twice, each time followed by a token,
and the last occurrence is followed by `b.txt`; the loop takes the second `<`
as the operand of the first, so the input path is `<` and `b.txt`, the operand
of the last occurrence, is in `argv`.  In `cmd < a.txt < b.txt <` the operator
occurs twice with an operand and the third `<`, which has none, is in
`argv`. -/
theorem C2_counterexample_operator_as_operand :
    (["cmd", "<", "<", "b.txt"][1]? = some "<" ∧ ["cmd", "<", "<", "b.txt"][2]? = some "<" ∧
      ["cmd", "<", "<", "b.txt"][3]? = some "b.txt" ∧
      parse_tokens ["cmd", "<", "<", "b.txt"] =
        { argv := ["cmd", "b.txt"], input_file := some "<", output_file := none,
          background := false } ∧
      (parse_tokens ["cmd", "<", "<", "b.txt"]).input_file ≠ some "b.txt" ∧
      "b.txt" ∈ (parse_tokens ["cmd", "<", "<", "b.txt"]).argv) ∧
    (parse_tokens ["cmd", "<", "a.txt", "<", "b.txt", "<"] =
        { argv := ["cmd", "<"], input_file := some "b.txt", output_file := none,
          background := false } ∧
      "<" ∈ (parse_tokens ["cmd", "<", "a.txt", "<", "b.txt", "<"]).argv) := by
  refine ⟨⟨by decide, by decide, by decide, ?_, ?_, ?_⟩, ⟨?_, ?_⟩⟩
  · rw [parse_tokens_eq]; decide
  · rw [parse_tokens_eq]; decide
  · rw [parse_tokens_eq]; decide
  · rw [parse_tokens_eq]; decide
  · rw [parse_tokens_eq]; decide

/-! ### A trailing operator -/

theorem getLast?_cons_of_ne_nil (a : TokenRole) (l : List TokenRole) (h : l ≠ []) :
    (a :: l).getLast? = l.getLast? := by
  cases l with
  | nil => exact absurd rfl h
  | cons b l => simp [List.getLast?_cons_cons]

theorem token_roles_append_ne_nil (pre : List String) (t : String) :
    token_roles (pre ++ [t]) ≠ [] := by
  intro h
  have := token_roles_length (pre ++ [t])
  rw [h] at this
  simp at this

/-- Whether the last token of a command is swallowed as an operand depends on
the tokens before it only; when it is not, the loop reads the command as the
tokens before it followed by that token alone. -/
theorem trailing_token (pre : List String) :
    (∀ t : String,
      (token_roles (pre ++ [t])).getLast? = some TokenRole.in_operand ∨
        (token_roles (pre ++ [t])).getLast? = some TokenRole.out_operand) ∨
    (∀ t : String,
      token_roles (pre ++ [t]) = token_roles pre ++ token_roles [t] ∧
        ∀ s : LaunchSpec, parse_list (pre ++ [t]) s = parse_list [t] (parse_list pre s)) := by
  induction pre using token_roles.induct with
  | case1 =>
    right
    intro t
    refine ⟨by simp [token_roles], fun s => ?_⟩
    rw [parse_list_nil_eq, List.nil_append]
  | case2 =>
    right
    intro t
    refine ⟨?_, fun s => ?_⟩
    · rw [List.singleton_append, token_roles_bg_eq]
      simp [token_roles]
    · rw [List.singleton_append, parse_list_bg_eq, parse_list_single_bg]
  | case3 token h =>
    by_cases h1 : token = "<"
    · left
      intro t
      left
      rw [List.singleton_append, h1, token_roles_in_eq]
      simp [token_roles]
    · by_cases h2 : token = ">"
      · left
        intro t
        right
        rw [List.singleton_append, h2, token_roles_out_eq]
        simp [token_roles]
      · right
        intro t
        refine ⟨?_, fun s => ?_⟩
        · rw [List.singleton_append, token_roles_plain_eq _ _ _ h1 h2 h]
          simp [token_roles, h]
        · rw [List.singleton_append, parse_list_plain_eq _ _ _ _ h1 h2 h,
            parse_list_single_plain _ _ h]
  | case4 next rest ih =>
    have e : ∀ t, "<" :: next :: rest ++ [t] = "<" :: next :: (rest ++ [t]) := fun t => rfl
    rcases ih with ih | ih
    · left
      intro t
      rw [e, token_roles_in_eq, getLast?_cons_of_ne_nil _ _ (by simp),
        getLast?_cons_of_ne_nil _ _ (token_roles_append_ne_nil rest t)]
      exact ih t
    · right
      intro t
      refine ⟨?_, fun s => ?_⟩
      · rw [e, token_roles_in_eq, token_roles_in_eq, (ih t).1]
        rfl
      · rw [e, parse_list_in_eq, parse_list_in_eq, (ih t).2]
  | case5 next rest h ih =>
    have e : ∀ t, ">" :: next :: rest ++ [t] = ">" :: next :: (rest ++ [t]) := fun t => rfl
    rcases ih with ih | ih
    · left
      intro t
      rw [e, token_roles_out_eq, getLast?_cons_of_ne_nil _ _ (by simp),
        getLast?_cons_of_ne_nil _ _ (token_roles_append_ne_nil rest t)]
      exact ih t
    · right
      intro t
      refine ⟨?_, fun s => ?_⟩
      · rw [e, token_roles_out_eq, token_roles_out_eq, (ih t).1]
        rfl
      · rw [e, parse_list_out_eq, parse_list_out_eq, (ih t).2]
  | case6 next rest h1 h2 ih =>
    have e : ∀ t, "&" :: next :: rest ++ [t] = "&" :: next :: (rest ++ [t]) := fun t => rfl
    have e2 : ∀ t, next :: (rest ++ [t]) = (next :: rest) ++ [t] := fun t => rfl
    rcases ih with ih | ih
    · left
      intro t
      rw [e, token_roles_bg_eq, e2,
        getLast?_cons_of_ne_nil _ _ (token_roles_append_ne_nil (next :: rest) t)]
      exact ih t
    · right
      intro t
      refine ⟨?_, fun s => ?_⟩
      · rw [e, token_roles_bg_eq, token_roles_bg_eq, e2, (ih t).1]
        rfl
      · rw [e, parse_list_bg_eq, parse_list_bg_eq, e2, (ih t).2]
  | case7 token next rest h1 h2 h3 ih =>
    have e : ∀ t, token :: next :: rest ++ [t] = token :: next :: (rest ++ [t]) := fun t => rfl
    have e2 : ∀ t, next :: (rest ++ [t]) = (next :: rest) ++ [t] := fun t => rfl
    rcases ih with ih | ih
    · left
      intro t
      rw [e, token_roles_plain_eq _ _ _ h1 h2 h3, e2,
        getLast?_cons_of_ne_nil _ _ (token_roles_append_ne_nil (next :: rest) t)]
      exact ih t
    · right
      intro t
      refine ⟨?_, fun s => ?_⟩
      · rw [e, token_roles_plain_eq _ _ _ h1 h2 h3, token_roles_plain_eq _ _ _ h1 h2 h3, e2,
          (ih t).1]
        rfl
      · rw [e, parse_list_plain_eq _ _ _ _ h1 h2 h3, parse_list_plain_eq _ _ _ _ h1 h2 h3, e2,
          (ih t).2]

/-- C3: when the last token of a command is `<` or `>` and the loop does not
swallow it as the operand of an operator before it, the loop handles it in
its final `else`: it is appended to `argv` after the arguments of the tokens
before it, `input_file`, `output_file` and `background` are what those tokens
alone give, exactly as for any other last token that is not `&`; the pass
performs no call at all (so writes no diagnostic) and `spawn_process` goes on
to launch with that vector. -/
theorem C3_trailing_operator_is_plain (os : OS) (interactive : Bool) (bg_jobs : List Int)
    (pre : List String) (t : String) (ht : t = "<" ∨ t = ">")
    (hfree : (token_roles (pre ++ [t])).getLast? ≠ some TokenRole.in_operand ∧
      (token_roles (pre ++ [t])).getLast? ≠ some TokenRole.out_operand) :
    token_roles (pre ++ [t]) = token_roles pre ++ [TokenRole.plain] ∧
      parse_tokens (pre ++ [t]) =
        { parse_tokens pre with argv := (parse_tokens pre).argv ++ [t] } ∧
      (∀ u : String, u ≠ "&" →
        parse_tokens (pre ++ [u]) =
          { parse_tokens pre with argv := (parse_tokens pre).argv ++ [u] }) ∧
      (os.argv_alloc = true →
        spawn_process os interactive bg_jobs (pre ++ [t]) =
          launch os interactive bg_jobs
            { parse_tokens pre with argv := (parse_tokens pre).argv ++ [t] }) := by
  have htb : t ≠ "&" := by
    rcases ht with ht | ht <;> rw [ht] <;> decide
  have hright : ∀ u : String,
      token_roles (pre ++ [u]) = token_roles pre ++ token_roles [u] ∧
        ∀ s : LaunchSpec, parse_list (pre ++ [u]) s = parse_list [u] (parse_list pre s) := by
    rcases trailing_token pre with h | h
    · rcases h t with h | h
      · exact absurd h hfree.1
      · exact absurd h hfree.2
    · exact h
  have hparse : ∀ u : String, u ≠ "&" →
      parse_tokens (pre ++ [u]) =
        { parse_tokens pre with argv := (parse_tokens pre).argv ++ [u] } := by
    intro u hu
    rw [parse_tokens_eq, parse_tokens_eq, (hright u).2, parse_list_single_plain _ _ hu]
  refine ⟨?_, hparse t htb, hparse, ?_⟩
  · rw [(hright t).1]
    simp [token_roles, htb]
  · intro ha
    rw [spawn_process_launch os interactive bg_jobs (pre ++ [t]) (by simp) ha, hparse t htb]

theorem C3_trailing_operator_is_plain_witness :
    parse_tokens ["cat", "<", "in.txt", ">"] =
      { argv := ["cat", ">"], input_file := some "in.txt", output_file := none,
        background := false } := by
  have h := (C3_trailing_operator_is_plain (sample_os 0) true [] ["cat", "<", "in.txt"] ">"
    (Or.inr rfl) (by decide)).2.1
  rw [show ["cat", "<", "in.txt"] ++ [">"] = ["cat", "<", "in.txt", ">"] from rfl] at h
  rw [h, parse_tokens_eq]
  decide

/-! ### The path resolver against its specification -/

theorem split_fields_eq_splitOn_aux (delim : Char) (l : List Char) :
    ∀ cur : List Char,
      split_fields delim l cur = (List.splitOn delim l).modifyHead (fun f => cur ++ f) := by
  induction l with
  | nil => intro cur; simp [split_fields, List.splitOn, List.splitOnP_nil]
  | cons c cs ih =>
    intro cur
    unfold List.splitOn at ih ⊢
    rw [List.splitOnP_cons]
    by_cases hc : c = delim
    · have hid : ∀ x : List (List Char), List.modifyHead (fun f => f) x = x := by
        intro x; cases x <;> rfl
      simp [split_fields, hc, ih, hid]
    · have h1 : ((fun f => cur ++ f) ∘ List.cons c) =
          (fun f : List Char => cur ++ [c] ++ f) := by
        funext f; simp
      simp [split_fields, hc, ih, h1]

/-- The fields of `path_dirs` are those of the library split `List.splitOn`. -/
theorem path_dirs_eq_splitOn (path_env : String) :
    path_dirs path_env = (List.splitOn ':' path_env.toList).map String.mk := by
  unfold path_dirs
  rw [split_fields_eq_splitOn_aux]
  have h0 : (fun f : List Char => ([] : List Char) ++ f) = id := by
    funext f; simp
  rw [h0]
  simp

theorem strtok_fields_eq_filter (delim : Char) (l : List Char) :
    ∀ cur : List Char,
      strtok_fields delim l cur =
        (split_fields delim l cur).filter (fun f => decide (f ≠ [])) := by
  induction l with
  | nil =>
    intro cur
    by_cases h : cur = [] <;> simp [strtok_fields, split_fields, h]
  | cons c cs ih =>
    intro cur
    by_cases hc : c = delim
    · by_cases h : cur = [] <;> simp [strtok_fields, split_fields, hc, h, ih]
    · simp [strtok_fields, split_fields, hc, ih]

theorem string_mk_ne_empty (cs : List Char) : String.mk cs ≠ "" ↔ cs ≠ [] := by
  constructor
  · intro h hcs
    exact h (by rw [hcs])
  · intro h hs
    apply h
    have : (String.mk cs).data = ("" : String).data := by rw [hs]
    simpa using this

theorem strtok_dirs_eq (path_env : String) :
    (strtok_fields ':' path_env.toList []).map String.mk = path_dirs_nonempty path_env := by
  unfold path_dirs_nonempty path_dirs
  rw [strtok_fields_eq_filter, List.filter_map]
  congr 1
  apply List.filter_congr
  intro cs _
  simp only [Function.comp]
  by_cases h : cs = []
  · simp [h]
  · have := (string_mk_ne_empty cs).mpr h
    simp [h, this]

theorem search_path_result (os : OS) (program : String) (halloc : ∀ k, os.path_alloc k = true)
    (dirs : List String) :
    ∀ k : Nat, (search_path os program dirs k).result =
      some (((dirs.map (fun dir => dir ++ "/" ++ program)).find? os.access_x).getD program) := by
  induction dirs with
  | nil => intro k; simp [search_path, halloc]
  | cons dir rest ih =>
    intro k
    unfold search_path
    by_cases hx : os.access_x (dir ++ "/" ++ program) = true
    · simp [halloc, hx, List.find?_cons]
    · simp [halloc, hx, List.find?_cons, ih]

/-- C4 (as amended): with every allocation succeeding, `resolve_path` returns
what the specified resolver returns when the directories are the non-empty
fields of the search-path value split on `:` (`strtok_r` skips empty fields):
a token with a `/` comes back unchanged and no candidate is tested;
otherwise the result is `dir/token` for the first non-empty directory, in
listed order, whose candidate is executable, and the token unchanged when the
variable is unset or no candidate is executable. -/
theorem C4_resolve_path_refines (os : OS) (program : String)
    (halloc : ∀ k, os.path_alloc k = true) :
    (resolve_path os (some program)).result =
        some (resolve_path_spec path_dirs_nonempty os.path_env os.access_x program) ∧
      ('/' ∈ program.toList → (resolve_path os (some program)).events = []) := by
  rw [resolve_path_some]
  unfold resolve_path_spec
  by_cases hs : '/' ∈ program.toList
  · rw [if_pos hs, if_pos hs]
    simp [halloc]
  · rw [if_neg hs, if_neg hs]
    refine ⟨?_, fun h => absurd h hs⟩
    cases hp : os.path_env with
    | none => simp [halloc]
    | some value =>
      simp only [halloc, if_true]
      rw [search_path_result os program halloc, strtok_dirs_eq]

theorem C4_resolve_path_refines_witness :
    (resolve_path (sample_os 1) (some "ls")).result = some "/bin/ls" := by
  have h := (C4_resolve_path_refines (sample_os 1) "ls" (fun _ => rfl)).1
  rw [h]
  decide

/-- C4 (as stated) fails: with the search path `/usr/bin::/bin` and `/tool`
the only executable, the specified resolver, which splits on `:` and so
reads an empty directory between the two colons, answers `/tool`, while
`resolve_path` tests `/usr/bin/tool` and `/bin/tool` only and returns `tool`. -/
theorem C4_counterexample_empty_field :
    (resolve_path empty_field_os (some "tool")).result = some "tool" ∧
      (resolve_path empty_field_os (some "tool")).events =
        [Event.access "/usr/bin/tool" false, Event.access "/bin/tool" false] ∧
      (∀ k, empty_field_os.path_alloc k = true) ∧
      path_dirs "/usr/bin::/bin" = ["/usr/bin", "", "/bin"] ∧
      resolve_path_spec path_dirs empty_field_os.path_env empty_field_os.access_x "tool"
        = "/tool" ∧
      (resolve_path empty_field_os (some "tool")).result ≠
        some (resolve_path_spec path_dirs empty_field_os.path_env empty_field_os.access_x
          "tool") := by
  refine ⟨by decide, by decide, fun _ => rfl, by decide, by decide, by decide⟩

/-! ### Background launches -/

theorem tokens_with_role_ne_nil (r : TokenRole) (tokens : List String) :
    tokens_with_role r tokens ≠ [] ↔ r ∈ token_roles tokens := by
  induction tokens using token_roles.induct with
  | case1 => simp [tokens_with_role_nil, token_roles]
  | case2 =>
    by_cases h : TokenRole.background_marker = r
    · simp [tokens_with_role_single, token_roles, h]
    · simp [tokens_with_role_single, token_roles, h, Ne.symm h]
  | case3 token h =>
    by_cases hr : TokenRole.plain = r
    · simp [tokens_with_role_single, token_roles, h, hr]
    · simp [tokens_with_role_single, token_roles, h, hr, Ne.symm hr]
  | case4 next rest ih =>
    rw [tokens_with_role_in, token_roles_in_eq]
    by_cases h1 : TokenRole.in_operator = r
    · simp [h1]
    · by_cases h2 : TokenRole.in_operand = r
      · simp [h2]
      · simp [h1, h2, Ne.symm h1, Ne.symm h2, ih]
  | case5 next rest h ih =>
    rw [tokens_with_role_out, token_roles_out_eq]
    by_cases h1 : TokenRole.out_operator = r
    · simp [h1]
    · by_cases h2 : TokenRole.out_operand = r
      · simp [h2]
      · simp [h1, h2, Ne.symm h1, Ne.symm h2, ih]
  | case6 next rest h1 h2 ih =>
    rw [tokens_with_role_bg, token_roles_bg_eq]
    by_cases h : TokenRole.background_marker = r
    · simp [h]
    · simp [h, Ne.symm h, ih]
  | case7 token next rest h1 h2 h3 ih =>
    rw [tokens_with_role_plain _ _ _ _ h1 h2 h3, token_roles_plain_eq _ _ _ h1 h2 h3]
    by_cases h : TokenRole.plain = r
    · simp [h]
    · simp [h, Ne.symm h, ih]

theorem parse_tokens_background (tokens : List String) :
    (parse_tokens tokens).background = true ↔
      TokenRole.background_marker ∈ token_roles tokens := by
  rw [parse_tokens_roles]
  simp [tokens_with_role_ne_nil]

theorem parse_tokens_argv_ne_nil (tokens : List String) :
    (parse_tokens tokens).argv ≠ [] ↔ TokenRole.plain ∈ token_roles tokens := by
  rw [parse_tokens_roles]
  simp [tokens_with_role_ne_nil]

theorem redirect_events (os : OS) (file : Option String) (mode : OpenMode) (target : Int) :
    ∀ e ∈ (redirect os file mode target).1,
      is_fork e = false ∧ is_waitpid e = false ∧ is_tcsetpgrp e = false := by
  unfold redirect
  cases file with
  | none => simp
  | some path =>
    cases h : os.open_file path mode with
    | error err => simp [h, perror, is_fork, is_waitpid, is_tcsetpgrp]
    | ok fd => simp [h, is_fork, is_waitpid, is_tcsetpgrp]

theorem spawn_child_events (os : OS) (interactive : Bool) (spec : LaunchSpec)
    (program : String) :
    ∀ e ∈ (spawn_child os interactive spec program).1,
      is_fork e = false ∧ is_waitpid e = false := by
  have h1 := redirect_events os spec.input_file OpenMode.rdonly STDIN_FILENO
  have h2 := redirect_events os spec.output_file (OpenMode.wronly_creat_trunc 0o666)
    STDOUT_FILENO
  have hstart : ∀ e ∈ reset_signal_handlers ++ [Event.setpgid 0 0] ++
      (if (!spec.background && interactive) = true then
        [Event.tcsetpgrp STDIN_FILENO os.child_pgrp] else []),
      is_fork e = false ∧ is_waitpid e = false := by
    intro e he
    by_cases hi : (!spec.background && interactive) = true
    · rw [if_pos hi] at he
      simp only [reset_signal_handlers, List.mem_append, List.mem_cons, List.mem_singleton,
        List.not_mem_nil, or_false] at he
      rcases he with (he | he) | he
      · rcases he with he | he | he | he | he | he <;> rw [he] <;> exact ⟨rfl, rfl⟩
      · rw [he]; exact ⟨rfl, rfl⟩
      · rw [he]; exact ⟨rfl, rfl⟩
    · rw [if_neg hi] at he
      simp only [reset_signal_handlers, List.mem_append, List.mem_cons, List.mem_singleton,
        List.not_mem_nil, or_false] at he
      rcases he with he | he
      · rcases he with he | he | he | he | he | he <;> rw [he] <;> exact ⟨rfl, rfl⟩
      · rw [he]; exact ⟨rfl, rfl⟩
  intro e he
  unfold spawn_child at he
  by_cases c1 : (redirect os spec.input_file OpenMode.rdonly STDIN_FILENO).2 = true
  · by_cases c2 : (redirect os spec.output_file (OpenMode.wronly_creat_trunc 0o666)
        STDOUT_FILENO).2 = true
    · cases c3 : os.execve program spec.argv os.environ with
      | none =>
        simp only [c1, c2, c3, if_true] at he
        rw [List.mem_append, List.mem_append, List.mem_append] at he
        rcases he with ((he | he) | he) | he
        · exact hstart e he
        · exact ⟨(h1 e he).1, (h1 e he).2.1⟩
        · exact ⟨(h2 e he).1, (h2 e he).2.1⟩
        · rw [List.mem_singleton] at he
          rw [he]; exact ⟨rfl, rfl⟩
      | some err =>
        simp only [c1, c2, c3, if_true] at he
        rw [List.mem_append, List.mem_append, List.mem_append] at he
        rcases he with ((he | he) | he) | he
        · exact hstart e he
        · exact ⟨(h1 e he).1, (h1 e he).2.1⟩
        · exact ⟨(h2 e he).1, (h2 e he).2.1⟩
        · simp only [List.mem_cons, List.mem_singleton, List.not_mem_nil, or_false, perror]
            at he
          rcases he with he | he | he <;> rw [he] <;> exact ⟨rfl, rfl⟩
    · simp only [c1, c2, if_true] at he
      rw [if_neg (by simp), List.mem_append, List.mem_append] at he
      rcases he with (he | he) | he
      · exact hstart e he
      · exact ⟨(h1 e he).1, (h1 e he).2.1⟩
      · exact ⟨(h2 e he).1, (h2 e he).2.1⟩
  · simp only [c1] at he
    rw [if_neg (by simp), List.mem_append] at he
    rcases he with he | he
    · exact hstart e he
    · exact ⟨(h1 e he).1, (h1 e he).2.1⟩

theorem spawn_parent_events (os : OS) (interactive : Bool) (bg_jobs : List Int)
    (spec : LaunchSpec) (pid : Int) :
    ∀ e ∈ (spawn_parent os interactive bg_jobs spec pid).1, is_fork e = false := by
  unfold spawn_parent add_bg_job
  cases spec.background <;> cases interactive <;> cases os.job_alloc <;>
    simp [perror, is_fork]

theorem resolve_path_events_kind (os : OS) (p : Option String) :
    ∀ e ∈ (resolve_path os p).events,
      is_fork e = false ∧ is_waitpid e = false ∧ is_tcsetpgrp e = false := by
  intro e he
  obtain ⟨path, b, hb⟩ := resolve_path_events os p e he
  rw [hb]
  exact ⟨rfl, rfl, rfl⟩

/-- A `fork` event of `launch` is the one call of line 200: the vector is not
empty, the resolver gave a program and the event carries what `fork`
returned. -/
theorem launch_fork (os : OS) (interactive : Bool) (bg_jobs : List Int) (spec : LaunchSpec)
    (p : Int) (h : Event.fork p ∈ (launch os interactive bg_jobs spec).events) :
    p = os.fork_result ∧ ∃ arg0 rest program, spec.argv = arg0 :: rest ∧
      (resolve_path os (some arg0)).result = some program := by
  unfold launch at h
  cases hargv : spec.argv with
  | nil => simp [hargv] at h
  | cons arg0 rest =>
    have hne : Event.fork p ∉ (resolve_path os (some arg0)).events := by
      intro hm
      have := (resolve_path_events_kind os (some arg0) _ hm).1
      simp [is_fork] at this
    simp only [hargv] at h
    cases hres : (resolve_path os (some arg0)).result with
    | none => simp [hres, hne] at h
    | some program =>
      refine ⟨?_, arg0, rest, program, rfl, hres⟩
      simp only [hres] at h
      by_cases f1 : os.fork_result < 0
      · rw [if_pos f1] at h
        simp only [List.mem_append, hne, false_or, List.mem_cons, List.mem_singleton,
          perror, List.not_mem_nil, or_false] at h
        rcases h with h | h
        · injection h
        · cases h
      · by_cases f2 : os.fork_result = 0
        · rw [if_neg f1, if_pos f2] at h
          simp only [List.mem_append, hne, false_or, List.mem_singleton] at h
          rcases h with h | h
          · injection h
          · have := (spawn_child_events os interactive spec program _ h).1
            simp [is_fork] at this
        · rw [if_neg f1, if_neg f2] at h
          simp only [List.mem_append, hne, false_or, List.mem_singleton] at h
          rcases h with h | h
          · injection h
          · have := spawn_parent_events os interactive bg_jobs spec os.fork_result _ h
            simp [is_fork] at this

theorem spawn_process_fork (os : OS) (interactive : Bool) (bg_jobs : List Int)
    (tokens : List String) (p : Int)
    (h : Event.fork p ∈ (spawn_process os interactive bg_jobs tokens).events) :
    spawn_process os interactive bg_jobs tokens =
        launch os interactive bg_jobs (parse_tokens tokens) ∧
      p = os.fork_result ∧ ∃ arg0 rest program, (parse_tokens tokens).argv = arg0 :: rest ∧
        (resolve_path os (some arg0)).result = some program := by
  have key : spawn_process os interactive bg_jobs tokens =
      launch os interactive bg_jobs (parse_tokens tokens) := by
    unfold spawn_process at h ⊢
    by_cases h0 : tokens.length = 0
    · simp [h0] at h
    · by_cases ha : os.argv_alloc = true
      · simp [h0, ha]
      · simp [h0, ha, perror] at h
  rw [key] at h
  exact ⟨key, launch_fork _ _ _ _ _ h⟩

/-- The parent branch after a successful `fork`, event by event. -/
theorem launch_parent (os : OS) (interactive : Bool) (bg_jobs : List Int) (spec : LaunchSpec)
    (arg0 program : String) (rest : List String) (hargv : spec.argv = arg0 :: rest)
    (hres : (resolve_path os (some arg0)).result = some program) (hp : 0 < os.fork_result) :
    launch os interactive bg_jobs spec =
      { events := (resolve_path os (some arg0)).events ++ [Event.fork os.fork_result] ++
          (spawn_parent os interactive bg_jobs spec os.fork_result).1,
        bg_jobs := (spawn_parent os interactive bg_jobs spec os.fork_result).2,
        ending := Ending.returned } := by
  unfold launch
  simp only [hargv, hres]
  rw [if_neg (by omega), if_neg (by omega)]

/-- C5 (as amended): when the parse loop reads a `&` as the background
marker (a `&` that is not the operand of a redirect) and `fork` succeeds with
child id `p`, the parent performs `setpgid(p, p)` and `add_bg_job(p)` and
returns: no call of `waitpid`, no call of `tcsetpgrp`.  When the allocation of
the record succeeds the registry afterwards is `p` in front of every record it
held before; when it fails the registry is unchanged and the `malloc`
diagnostic is written.  (That `fork` was reached implies that the command has
a plain argument.) -/
theorem C5_background_launch (os : OS) (interactive : Bool) (bg_jobs : List Int)
    (tokens : List String) (p : Int)
    (hbg : TokenRole.background_marker ∈ token_roles tokens)
    (hfork : Event.fork p ∈ (spawn_process os interactive bg_jobs tokens).events)
    (hp : 0 < p) :
    (spawn_process os interactive bg_jobs tokens).events =
        (resolve_path os (parse_tokens tokens).argv.head?).events ++
          [Event.fork p, Event.setpgid p p] ++
          (if os.job_alloc then [] else [perror "malloc" os.alloc_error]) ∧
      (spawn_process os interactive bg_jobs tokens).bg_jobs =
        (if os.job_alloc then p :: bg_jobs else bg_jobs) ∧
      (spawn_process os interactive bg_jobs tokens).ending = Ending.returned ∧
      (∀ e ∈ (spawn_process os interactive bg_jobs tokens).events,
        is_waitpid e = false ∧ is_tcsetpgrp e = false) ∧
      TokenRole.plain ∈ token_roles tokens := by
  obtain ⟨key, hpid, arg0, rest, program, hargv, hres⟩ :=
    spawn_process_fork os interactive bg_jobs tokens p hfork
  have hb : (parse_tokens tokens).background = true :=
    (parse_tokens_background tokens).mpr hbg
  have hplain : TokenRole.plain ∈ token_roles tokens := by
    rw [← parse_tokens_argv_ne_nil, hargv]
    simp
  rw [hpid] at hp
  have hev : (spawn_process os interactive bg_jobs tokens).events =
      (resolve_path os (parse_tokens tokens).argv.head?).events ++
        [Event.fork p, Event.setpgid p p] ++
        (if os.job_alloc then [] else [perror "malloc" os.alloc_error]) := by
    rw [key, launch_parent os interactive bg_jobs _ arg0 program rest hargv hres hp, hargv,
      hpid]
    unfold spawn_parent add_bg_job
    cases hj : os.job_alloc <;> simp [hb]
  refine ⟨hev, ?_, ?_, ?_, hplain⟩
  · rw [key, launch_parent os interactive bg_jobs _ arg0 program rest hargv hres hp, hpid]
    unfold spawn_parent add_bg_job
    cases hj : os.job_alloc <;> simp [hb]
  · rw [key, launch_parent os interactive bg_jobs _ arg0 program rest hargv hres hp]
  · intro e he
    rw [hev, List.mem_append, List.mem_append] at he
    rcases he with (he | he) | he
    · have := resolve_path_events_kind os _ e he
      exact ⟨this.2.1, this.2.2⟩
    · simp only [List.mem_cons, List.mem_singleton, List.not_mem_nil, or_false] at he
      rcases he with he | he <;> rw [he] <;> exact ⟨rfl, rfl⟩
    · cases hj : os.job_alloc
      · rw [hj] at he
        simp only [perror, Bool.false_eq_true, if_false, List.mem_singleton] at he
        rw [he]
        exact ⟨rfl, rfl⟩
      · rw [hj] at he
        simp at he

theorem C5_background_launch_witness :
    (spawn_process (sample_os 4242) true [7] ["ls", "-l", "&"]).bg_jobs = [4242, 7] ∧
      (spawn_process (sample_os 4242) true [7] ["ls", "-l", "&"]).events =
        [Event.access "/usr/bin/ls" false, Event.access "/bin/ls" true, Event.fork 4242,
          Event.setpgid 4242 4242] := by
  have h := C5_background_launch (sample_os 4242) true [7] ["ls", "-l", "&"] 4242
    (by decide) (by rw [spawn_process_eval]; decide) (by decide)
  exact ⟨h.2.1.trans (by decide), h.1.trans (by rw [parse_tokens_eq]; decide)⟩

/-- C5 (as stated) fails twice.  In `ls > &` the tokens include `&` and the
plain argument `ls`, but the loop takes the `&` as the operand of `>`: the
launch is a foreground one, the parent hands the terminal over, waits for
child 4242 and records nothing.  And in `ls &`, when `malloc` in `add_bg_job`
fails, child 4242 is not recorded either. -/
theorem C5_counterexample_not_recorded :
    ("&" ∈ ["ls", ">", "&"] ∧ (parse_tokens ["ls", ">", "&"]).argv = ["ls"] ∧
      (spawn_process (sample_os 4242) true [] ["ls", ">", "&"]).events =
        [Event.access "/usr/bin/ls" false, Event.access "/bin/ls" true, Event.fork 4242,
          Event.setpgid 4242 4242, Event.tcsetpgrp 0 4242, Event.waitpid 4242 4242,
          Event.tcsetpgrp 0 100] ∧
      (spawn_process (sample_os 4242) true [] ["ls", ">", "&"]).bg_jobs = []) ∧
    ("&" ∈ ["ls", "&"] ∧ (parse_tokens ["ls", "&"]).argv = ["ls"] ∧
      (spawn_process no_job_memory_os true [] ["ls", "&"]).events =
        [Event.access "/usr/bin/ls" false, Event.access "/bin/ls" true, Event.fork 4242,
          Event.setpgid 4242 4242,
          Event.stderr_write "malloc: Cannot allocate memory\n"] ∧
      (spawn_process no_job_memory_os true [] ["ls", "&"]).bg_jobs = []) := by
  refine ⟨⟨by decide, ?_, ?_, ?_⟩, ⟨by decide, ?_, ?_, ?_⟩⟩
  · rw [parse_tokens_eq]; decide
  · rw [spawn_process_eval]; decide
  · rw [spawn_process_eval]; decide
  · rw [parse_tokens_eq]; decide
  · rw [spawn_process_eval]; decide
  · rw [spawn_process_eval]; decide

/-! ### Draining the registry -/

theorem remove_job_eq_erase (pid : Int) (jobs : List Int) :
    remove_job pid jobs = jobs.erase pid := by
  induction jobs with
  | nil => rfl
  | cons job rest ih =>
    by_cases h : job = pid
    · simp [remove_job, h]
    · simp [remove_job, h, List.erase_cons_tail, ih]

theorem wait_all_bg_jobs_nil (results : List Int) :
    wait_all_bg_jobs results [] = { events := [], bg_jobs := [] } := by
  cases results <;> rfl

theorem wait_all_bg_jobs_stop (pid : Int) (results jobs : List Int) (hj : jobs ≠ [])
    (hpid : pid ≤ 0) :
    wait_all_bg_jobs (pid :: results) jobs =
      { events := [Event.waitpid (-1) pid], bg_jobs := jobs } := by
  cases jobs with
  | nil => exact absurd rfl hj
  | cons job rest => rw [wait_all_bg_jobs, if_pos hpid]

theorem wait_all_bg_jobs_step (pid : Int) (results jobs : List Int) (hj : jobs ≠ [])
    (hpid : 0 < pid) :
    wait_all_bg_jobs (pid :: results) jobs =
      { events := Event.waitpid (-1) pid ::
          (wait_all_bg_jobs results (remove_job pid jobs)).events,
        bg_jobs := (wait_all_bg_jobs results (remove_job pid jobs)).bg_jobs } := by
  cases jobs with
  | nil => exact absurd rfl hj
  | cons job rest => rw [wait_all_bg_jobs, if_neg (by omega)]

theorem wait_all_bg_jobs_no_child (jobs : List Int) (hj : jobs ≠ []) :
    wait_all_bg_jobs [] jobs = { events := [Event.waitpid (-1) (-1)], bg_jobs := jobs } := by
  cases jobs with
  | nil => exact absurd rfl hj
  | cons job rest => rfl

theorem wait_all_bg_jobs_drains (pre : List Int) :
    ∀ (post jobs : List Int), (∀ r ∈ pre, 0 < r) → (∀ q, jobs.count q ≤ pre.count q) →
      (wait_all_bg_jobs (pre ++ post) jobs).bg_jobs = [] := by
  induction pre with
  | nil =>
    intro post jobs _ hc
    have hj : jobs = [] := by
      cases jobs with
      | nil => rfl
      | cons job rest =>
        have := hc job
        simp at this
    rw [hj, wait_all_bg_jobs_nil]
  | cons r pre ih =>
    intro post jobs hpos hc
    by_cases hj : jobs = []
    · rw [hj, wait_all_bg_jobs_nil]
    · have hr : 0 < r := hpos r (List.mem_cons_self _ _)
      rw [List.cons_append, wait_all_bg_jobs_step r _ jobs hj hr]
      apply ih post (remove_job r jobs) (fun x hx => hpos x (List.mem_cons_of_mem _ hx))
      intro q
      rw [remove_job_eq_erase]
      have hq := hc q
      by_cases e : q = r
      · rw [e, List.count_erase_self]
        rw [e, List.count_cons_self] at hq
        omega
      · rw [List.count_erase_of_ne e]
        rw [List.count_cons_of_ne e] at hq
        exact hq

/-- C6: `wait_all_bg_jobs`, for every registry and every sequence of results
of `waitpid(-1, ..)`.  On an empty registry it returns at once without a call.
On a non-empty registry it calls once more: a non-positive result ends the
loop with the registry as it is; a positive result unlinks the first record
with that pid (exactly one record when the pid is registered, none when it is
not) and the loop goes on with the remaining results.  When every registered
id is returned, as often as it is registered, before any non-positive result,
the registry ends empty. -/
theorem C6_wait_all_bg_jobs (results jobs : List Int) :
    wait_all_bg_jobs results [] = { events := [], bg_jobs := [] } ∧
      (∀ pid : Int, jobs ≠ [] → pid ≤ 0 →
        wait_all_bg_jobs (pid :: results) jobs =
          { events := [Event.waitpid (-1) pid], bg_jobs := jobs }) ∧
      (jobs ≠ [] →
        wait_all_bg_jobs [] jobs =
          { events := [Event.waitpid (-1) (-1)], bg_jobs := jobs }) ∧
      (∀ pid : Int, jobs ≠ [] → 0 < pid →
        wait_all_bg_jobs (pid :: results) jobs =
          { events := Event.waitpid (-1) pid ::
              (wait_all_bg_jobs results (remove_job pid jobs)).events,
            bg_jobs := (wait_all_bg_jobs results (remove_job pid jobs)).bg_jobs }) ∧
      (∀ pid : Int, remove_job pid jobs = jobs.erase pid) ∧
      (∀ pid : Int, pid ∈ jobs →
        (remove_job pid jobs).length + 1 = jobs.length ∧
          (remove_job pid jobs).count pid + 1 = jobs.count pid ∧
          ∀ q : Int, q ≠ pid → (remove_job pid jobs).count q = jobs.count q) ∧
      (∀ pid : Int, pid ∉ jobs → remove_job pid jobs = jobs) ∧
      (∀ pre post : List Int, results = pre ++ post → (∀ r ∈ pre, 0 < r) →
        (∀ q : Int, jobs.count q ≤ pre.count q) →
          (wait_all_bg_jobs results jobs).bg_jobs = []) := by
  refine ⟨wait_all_bg_jobs_nil results, ?_, wait_all_bg_jobs_no_child jobs, ?_,
    fun pid => remove_job_eq_erase pid jobs, ?_, ?_, ?_⟩
  · intro pid hj hpid
    exact wait_all_bg_jobs_stop pid results jobs hj hpid
  · intro pid hj hpid
    exact wait_all_bg_jobs_step pid results jobs hj hpid
  · intro pid hmem
    rw [remove_job_eq_erase]
    refine ⟨?_, ?_, ?_⟩
    · rw [List.length_erase_of_mem hmem]
      have : 0 < jobs.length := List.length_pos_of_mem hmem
      omega
    · rw [List.count_erase_self]
      have : 0 < jobs.count pid := List.count_pos_iff.mpr hmem
      omega
    · intro q hq
      exact List.count_erase_of_ne hq jobs
  · intro pid hmem
    rw [remove_job_eq_erase]
    exact List.erase_of_not_mem hmem
  · intro pre post hres hpos hc
    rw [hres]
    exact wait_all_bg_jobs_drains pre post jobs hpos hc

theorem C6_wait_all_bg_jobs_witness :
    wait_all_bg_jobs [31, 99, 30, 0, 32] [32, 31, 30] =
        { events := [Event.waitpid (-1) 31, Event.waitpid (-1) 99, Event.waitpid (-1) 30,
            Event.waitpid (-1) 0],
          bg_jobs := [32] } ∧
      (wait_all_bg_jobs [31, 99, 30, 32, 55] [32, 31, 30]).bg_jobs = [] :=
  ⟨by decide,
    (C6_wait_all_bg_jobs [31, 99, 30, 32, 55] [32, 31, 30]).2.2.2.2.2.2.2
      [31, 99, 30, 32] [55] rfl (by decide) (by
        intro q
        by_cases h1 : q = 32
        · rw [h1]; decide
        · by_cases h2 : q = 31
          · rw [h2]; decide
          · by_cases h3 : q = 30
            · rw [h3]; decide
            · have e : List.count q [32, 31, 30] = 0 := by
                rw [List.count_eq_zero]
                simp [h1, h2, h3]
              omega)⟩

/-! ### Built-in commands -/

theorem wait_all_bg_jobs_events (results : List Int) :
    ∀ jobs : List Int, ∀ e ∈ (wait_all_bg_jobs results jobs).events, is_fork e = false := by
  induction results with
  | nil =>
    intro jobs e he
    cases jobs with
    | nil => simp [wait_all_bg_jobs] at he
    | cons job rest =>
      simp [wait_all_bg_jobs] at he
      rw [he]; rfl
  | cons pid results ih =>
    intro jobs e he
    cases jobs with
    | nil => simp [wait_all_bg_jobs] at he
    | cons job rest =>
      by_cases hpid : pid ≤ 0
      · rw [wait_all_bg_jobs_stop pid results _ (by simp) hpid] at he
        simp at he
        rw [he]; rfl
      · rw [wait_all_bg_jobs_step pid results _ (by simp) (by omega)] at he
        simp only [List.mem_cons] at he
        rcases he with he | he
        · rw [he]; rfl
        · exact ih _ e he

theorem handle_builtin_command_cons (os : OS) (bg_jobs : List Int) (first_token : String)
    (rest : List String) :
    handle_builtin_command os bg_jobs (first_token :: rest) =
      if first_token = "help" then
        { events := print_usage, bg_jobs := bg_jobs, outcome := Outcome.returned true }
      else if first_token = "exit" then
        { events := [Event.proc_exit (match rest with
            | [] => 0
            | code :: _ => os.atoi code)],
          bg_jobs := bg_jobs,
          outcome := Outcome.exited (match rest with
            | [] => 0
            | code :: _ => os.atoi code) }
      else if first_token = "pwd" then
        match os.getcwd with
        | Except.ok cwd =>
            { events := [Event.stdout_write (cwd ++ "\n")], bg_jobs := bg_jobs,
              outcome := Outcome.returned true }
        | Except.error e =>
            { events := [perror "getcwd" e], bg_jobs := bg_jobs,
              outcome := Outcome.returned true }
      else if first_token = "cd" then
        match (match rest with
          | [] => os.home_env
          | path :: _ => some path) with
        | none =>
            { events := [Event.stderr_write "cd: HOME not set\n"], bg_jobs := bg_jobs,
              outcome := Outcome.returned true }
        | some path =>
            match os.chdir path with
            | none =>
                { events := [Event.chdir path], bg_jobs := bg_jobs,
                  outcome := Outcome.returned true }
            | some e =>
                { events := [Event.chdir path, perror "cd" e], bg_jobs := bg_jobs,
                  outcome := Outcome.returned true }
      else if first_token = "wait" then
        { events := (wait_all_bg_jobs os.wait_any bg_jobs).events,
          bg_jobs := (wait_all_bg_jobs os.wait_any bg_jobs).bg_jobs,
          outcome := Outcome.returned true }
      else { events := [], bg_jobs := bg_jobs, outcome := Outcome.returned false } := rfl

theorem handle_builtin_command_events (os : OS) (bg_jobs : List Int) (tokens : List String) :
    ∀ e ∈ (handle_builtin_command os bg_jobs tokens).events, is_fork e = false := by
  intro e he
  cases tokens with
  | nil => simp [handle_builtin_command] at he
  | cons first_token rest =>
    rw [handle_builtin_command_cons] at he
    by_cases h1 : first_token = "help"
    · rw [if_pos h1] at he
      simp only [print_usage, List.mem_cons, List.mem_singleton, List.not_mem_nil,
        or_false] at he
      rcases he with he | he | he | he | he | he | he | he | he | he <;> rw [he] <;> rfl
    · rw [if_neg h1] at he
      by_cases h2 : first_token = "exit"
      · rw [if_pos h2] at he
        simp only [List.mem_singleton] at he
        rw [he]; rfl
      · rw [if_neg h2] at he
        by_cases h3 : first_token = "pwd"
        · rw [if_pos h3] at he
          cases hc : os.getcwd with
          | error err =>
            simp only [hc, perror, List.mem_singleton] at he
            rw [he]; rfl
          | ok cwd =>
            simp only [hc, List.mem_singleton] at he
            rw [he]; rfl
        · rw [if_neg h3] at he
          by_cases h4 : first_token = "cd"
          · rw [if_pos h4] at he
            generalize (match rest with
              | [] => os.home_env
              | path :: _ => some path) = target at he
            cases target with
            | none =>
              simp only [List.mem_singleton] at he
              rw [he]; rfl
            | some path =>
              cases hd : os.chdir path with
              | none =>
                simp only [hd, List.mem_singleton] at he
                rw [he]; rfl
              | some err =>
                simp only [hd, perror, List.mem_cons, List.mem_singleton, List.not_mem_nil,
                  or_false] at he
                rcases he with he | he <;> rw [he] <;> rfl
          · rw [if_neg h4] at he
            by_cases h5 : first_token = "wait"
            · rw [if_pos h5] at he
              exact wait_all_bg_jobs_events _ _ e he
            · rw [if_neg h5] at he
              simp at he

theorem handle_builtin_command_outcome (os : OS) (bg_jobs : List Int) (first_token : String)
    (rest : List String) :
    (first_token = "exit" →
      ∃ code, (handle_builtin_command os bg_jobs (first_token :: rest)).outcome =
        Outcome.exited code) ∧
    (first_token ∈ ["help", "pwd", "cd", "wait"] →
      (handle_builtin_command os bg_jobs (first_token :: rest)).outcome =
        Outcome.returned true) ∧
    (first_token ∉ ["help", "exit", "pwd", "cd", "wait"] →
      handle_builtin_command os bg_jobs (first_token :: rest) =
        { events := [], bg_jobs := bg_jobs, outcome := Outcome.returned false }) := by
  refine ⟨?_, ?_, ?_⟩
  · intro h
    rw [h, handle_builtin_command_cons, if_neg (by decide), if_pos rfl]
    exact ⟨_, rfl⟩
  · intro h
    simp only [List.mem_cons, List.mem_singleton, List.not_mem_nil, or_false] at h
    rw [handle_builtin_command_cons]
    rcases h with h | h | h | h
    · rw [h, if_pos rfl]
    · rw [h, if_neg (by decide), if_neg (by decide), if_pos rfl]
      cases os.getcwd <;> rfl
    · rw [h, if_neg (by decide), if_neg (by decide), if_neg (by decide), if_pos rfl]
      generalize (match rest with
        | [] => os.home_env
        | path :: _ => some path) = target
      cases target with
      | none => rfl
      | some path => cases hd : os.chdir path <;> simp [hd]
    · rw [h, if_neg (by decide), if_neg (by decide), if_neg (by decide), if_neg (by decide),
        if_pos rfl]
  · intro h
    simp only [List.mem_cons, List.mem_singleton, List.not_mem_nil, or_false, not_or] at h
    rw [handle_builtin_command_cons, if_neg h.1, if_neg h.2.1, if_neg h.2.2.1, if_neg h.2.2.2.1, if_neg h.2.2.2.2]

/-- C7: on a command with at least one token, `handle_builtin_command` returns
`false` exactly when the first token is none of the strings `help`, `exit`,
`pwd`, `cd`, `wait` (equality of whole strings, so case matters); when it
returns `false` it has made no call and the registry is as before; for `help`,
`pwd`, `cd` and `wait` it returns `true`, and the dispatch step of `main` then
ends with the events of the built-in alone, none of them a `fork`. -/
theorem C7_builtin_dispatch (os : OS) (interactive : Bool) (bg_jobs : List Int)
    (first_token : String) (rest : List String) :
    ((handle_builtin_command os bg_jobs (first_token :: rest)).outcome =
        Outcome.returned false ↔
      first_token ∉ ["help", "exit", "pwd", "cd", "wait"]) ∧
    ((handle_builtin_command os bg_jobs (first_token :: rest)).outcome =
        Outcome.returned false →
      (handle_builtin_command os bg_jobs (first_token :: rest)).events = [] ∧
        (handle_builtin_command os bg_jobs (first_token :: rest)).bg_jobs = bg_jobs) ∧
    (first_token ∈ ["help", "pwd", "cd", "wait"] →
      (handle_builtin_command os bg_jobs (first_token :: rest)).outcome =
          Outcome.returned true ∧
        dispatch_command os interactive bg_jobs (first_token :: rest) =
          { events := (handle_builtin_command os bg_jobs (first_token :: rest)).events,
            bg_jobs := (handle_builtin_command os bg_jobs (first_token :: rest)).bg_jobs,
            ending := Ending.returned } ∧
        ∀ e ∈ (dispatch_command os interactive bg_jobs (first_token :: rest)).events,
          is_fork e = false) := by
  obtain ⟨hexit, htrue, hfalse⟩ := handle_builtin_command_outcome os bg_jobs first_token rest
  have hiff : (handle_builtin_command os bg_jobs (first_token :: rest)).outcome =
        Outcome.returned false ↔
      first_token ∉ ["help", "exit", "pwd", "cd", "wait"] := by
    constructor
    · intro hout hmem
      simp only [List.mem_cons, List.mem_singleton, List.not_mem_nil, or_false] at hmem
      rcases hmem with h | h | h | h | h
      · rw [htrue (by simp [h])] at hout
        cases hout
      · obtain ⟨code, hc⟩ := hexit h
        rw [hc] at hout
        cases hout
      · rw [htrue (by simp [h])] at hout
        cases hout
      · rw [htrue (by simp [h])] at hout
        cases hout
      · rw [htrue (by simp [h])] at hout
        cases hout
    · intro h
      rw [hfalse h]
  refine ⟨hiff, ?_, ?_⟩
  · intro hout
    rw [hfalse (hiff.mp hout)]
    exact ⟨rfl, rfl⟩
  · intro hmem
    have ht := htrue hmem
    have hd : dispatch_command os interactive bg_jobs (first_token :: rest) =
        { events := (handle_builtin_command os bg_jobs (first_token :: rest)).events,
          bg_jobs := (handle_builtin_command os bg_jobs (first_token :: rest)).bg_jobs,
          ending := Ending.returned } := by
      unfold dispatch_command
      simp [ht]
    refine ⟨ht, hd, ?_⟩
    rw [hd]
    exact handle_builtin_command_events os bg_jobs (first_token :: rest)

theorem C7_builtin_dispatch_witness :
    (handle_builtin_command (sample_os 4242) [5] ["Help"]).outcome = Outcome.returned false ∧
      (handle_builtin_command (sample_os 4242) [5] ["cdx", "/tmp"]).events = [] ∧
      (handle_builtin_command (sample_os 4242) [5] ["cd", "/tmp"]).outcome =
        Outcome.returned true :=
  ⟨(C7_builtin_dispatch (sample_os 4242) true [5] "Help" []).1.mpr (by decide),
    ((C7_builtin_dispatch (sample_os 4242) true [5] "cdx" ["/tmp"]).2.1
      ((C7_builtin_dispatch (sample_os 4242) true [5] "cdx" ["/tmp"]).1.mpr (by decide))).1,
    ((C7_builtin_dispatch (sample_os 4242) true [5] "cd" ["/tmp"]).2.2 (by decide)).1⟩

/-! ### Failure of program replacement -/

theorem spawn_child_reaches_execve (os : OS) (interactive : Bool) (spec : LaunchSpec)
    (program : String)
    (h : Event.execve program spec.argv os.environ ∈
      (spawn_child os interactive spec program).1) :
    (redirect os spec.input_file OpenMode.rdonly STDIN_FILENO).2 = true ∧
      (redirect os spec.output_file (OpenMode.wronly_creat_trunc 0o666) STDOUT_FILENO).2
        = true := by
  have h1 := redirect_no_execve os spec.input_file OpenMode.rdonly STDIN_FILENO program
    spec.argv os.environ
  have h2 := redirect_no_execve os spec.output_file (OpenMode.wronly_creat_trunc 0o666)
    STDOUT_FILENO program spec.argv os.environ
  unfold spawn_child at h
  by_cases c1 : (redirect os spec.input_file OpenMode.rdonly STDIN_FILENO).2 = true
  · by_cases c2 : (redirect os spec.output_file (OpenMode.wronly_creat_trunc 0o666)
        STDOUT_FILENO).2 = true
    · exact ⟨c1, c2⟩
    · simp only [c1, c2, if_true] at h
      by_cases hi : (!spec.background && interactive) = true <;>
        simp [hi, reset_signal_handlers, h1, h2] at h
  · simp only [c1] at h
    by_cases hi : (!spec.background && interactive) = true <;>
      simp [hi, reset_signal_handlers, h1] at h

/-- C8 (as amended): in the child, whenever `execve` is reached and fails with
error text `e`, the last three calls of the child are that `execve`,
`perror(program)` and `exit(EXIT_FAILURE)`.  What `perror` writes to standard
error is the resolved program path, a colon, a blank, the system error text
and a newline, and, when the program path is the empty string, the error text
and the newline alone.  The status is 1, not zero. -/
theorem C8_exec_failure_diagnostic (os : OS) (interactive : Bool) (spec : LaunchSpec)
    (program e : String)
    (hreach : Event.execve program spec.argv os.environ ∈
      (spawn_child os interactive spec program).1)
    (hfail : os.execve program spec.argv os.environ = some e) :
    (∃ before : List Event,
      (spawn_child os interactive spec program).1 =
        before ++ [Event.execve program spec.argv os.environ,
          Event.stderr_write (if program = "" then e ++ "\n" else program ++ ": " ++ e ++ "\n"),
          Event.proc_exit EXIT_FAILURE]) ∧
      (program ≠ "" →
        perror program e = Event.stderr_write (program ++ ": " ++ e ++ "\n")) ∧
      (program = "" → perror program e = Event.stderr_write (e ++ "\n")) ∧
      (spawn_child os interactive spec program).2 = Ending.exited EXIT_FAILURE ∧
      EXIT_FAILURE = 1 ∧ EXIT_FAILURE ≠ 0 := by
  obtain ⟨c1, c2⟩ := spawn_child_reaches_execve os interactive spec program hreach
  refine ⟨?_, ?_, ?_, ?_, rfl, by decide⟩
  · refine ⟨reset_signal_handlers ++ [Event.setpgid 0 0] ++
        (if (!spec.background && interactive) = true then
          [Event.tcsetpgrp STDIN_FILENO os.child_pgrp] else []) ++
        (redirect os spec.input_file OpenMode.rdonly STDIN_FILENO).1 ++
        (redirect os spec.output_file (OpenMode.wronly_creat_trunc 0o666) STDOUT_FILENO).1,
      ?_⟩
    unfold spawn_child
    simp only [c1, c2, hfail, if_true, perror]
  · intro h
    unfold perror
    rw [if_neg h]
  · intro h
    unfold perror
    rw [if_pos h]
  · unfold spawn_child
    simp only [c1, c2, hfail, if_true]

theorem C8_exec_failure_diagnostic_witness :
    (spawn_child (sample_os 0) false
        { argv := ["nosuch"], input_file := none, output_file := none, background := false }
        "nosuch").2 = Ending.exited 1 ∧
      perror "nosuch" "No such file or directory" =
        Event.stderr_write "nosuch: No such file or directory\n" :=
  ⟨(C8_exec_failure_diagnostic (sample_os 0) false
      { argv := ["nosuch"], input_file := none, output_file := none, background := false }
      "nosuch" "No such file or directory" (by decide) (by decide)).2.2.2.1,
    ((C8_exec_failure_diagnostic (sample_os 0) false
      { argv := ["nosuch"], input_file := none, output_file := none, background := false }
      "nosuch" "No such file or directory" (by decide) (by decide)).2.1 (by decide)).trans
      (by decide)⟩

/-- C8 (as stated) fails: for the command `nosuch`, which no search-path
directory holds, the child reaches `execve("nosuch", ..)`, the call fails, and
what the child writes to standard error is `nosuch: No such file or
directory`; the text `nosuch: command not found` is not written. -/
theorem C8_counterexample_perror :
    (spawn_process (sample_os 0) false [] ["nosuch"]).events =
        [Event.access "/usr/bin/nosuch" false, Event.access "/bin/nosuch" false,
          Event.fork 0,
          Event.signal Signal.SIGINT Disposition.SIG_DFL,
          Event.signal Signal.SIGQUIT Disposition.SIG_DFL,
          Event.signal Signal.SIGTERM Disposition.SIG_DFL,
          Event.signal Signal.SIGTSTP Disposition.SIG_DFL,
          Event.signal Signal.SIGTTIN Disposition.SIG_DFL,
          Event.signal Signal.SIGTTOU Disposition.SIG_DFL,
          Event.setpgid 0 0,
          Event.execve "nosuch" ["nosuch"] ["PATH=/usr/bin:/bin", "HOME=/root"],
          Event.stderr_write "nosuch: No such file or directory\n",
          Event.proc_exit 1] ∧
      Event.stderr_write "nosuch: command not found\n" ∉
        (spawn_process (sample_os 0) false [] ["nosuch"]).events := by
  constructor
  · rw [spawn_process_eval]; decide
  · rw [spawn_process_eval]; decide

/-! ### Terminal ownership in the parent -/

theorem foreground_after_append (a b : List Event) :
    ∀ fg : Int, foreground_after fg (a ++ b) = foreground_after (foreground_after fg a) b := by
  induction a with
  | nil => intro fg; rfl
  | cons e a ih =>
    intro fg
    cases e <;> simp [foreground_after, ih]

/-- C9: in the shell, after a successful `fork` with child id `p`.  For a
foreground launch in interactive mode the calls of the parent are, in order,
`setpgid(p, p)`, `tcsetpgrp` to the group `p` of the child, `waitpid(p, ..)`,
`tcsetpgrp` to the shell's own group; so, whatever the wait returns, the
foreground group when `spawn_process` returns is the shell's own group.  In
non-interactive mode, and for a background launch, no call of the parent is
a `tcsetpgrp`. -/
theorem C9_terminal_ownership_paired (os : OS) (interactive : Bool) (bg_jobs : List Int)
    (tokens : List String) (p : Int)
    (hfork : Event.fork p ∈ (spawn_process os interactive bg_jobs tokens).events)
    (hp : 0 < p) :
    (interactive = true → (parse_tokens tokens).background = false →
      (spawn_process os interactive bg_jobs tokens).events =
          (resolve_path os (parse_tokens tokens).argv.head?).events ++
            [Event.fork p, Event.setpgid p p, Event.tcsetpgrp STDIN_FILENO p,
              Event.waitpid p os.fg_wait, Event.tcsetpgrp STDIN_FILENO os.shell_pgrp] ∧
        (spawn_process os interactive bg_jobs tokens).ending = Ending.returned ∧
        ∀ fg : Int,
          foreground_after fg (spawn_process os interactive bg_jobs tokens).events =
            os.shell_pgrp) ∧
    (interactive = false ∨ (parse_tokens tokens).background = true →
      ∀ e ∈ (spawn_process os interactive bg_jobs tokens).events, is_tcsetpgrp e = false) := by
  obtain ⟨key, hpid, arg0, rest, program, hargv, hres⟩ :=
    spawn_process_fork os interactive bg_jobs tokens p hfork
  rw [hpid] at hp
  have hl := launch_parent os interactive bg_jobs _ arg0 program rest hargv hres hp
  constructor
  · intro hi hb
    have hev : (spawn_process os interactive bg_jobs tokens).events =
        (resolve_path os (parse_tokens tokens).argv.head?).events ++
          [Event.fork p, Event.setpgid p p, Event.tcsetpgrp STDIN_FILENO p,
            Event.waitpid p os.fg_wait, Event.tcsetpgrp STDIN_FILENO os.shell_pgrp] := by
      rw [key, hl, hargv, hpid]
      unfold spawn_parent
      simp [hi, hb]
    refine ⟨hev, by rw [key, hl], ?_⟩
    intro fg
    rw [hev, foreground_after_append]
    rfl
  · intro h e he
    rw [key, hl] at he
    simp only [List.mem_append, List.mem_singleton] at he
    rcases he with (he | he) | he
    · exact (resolve_path_events_kind os _ e he).2.2
    · rw [he]; rfl
    · unfold spawn_parent add_bg_job at he
      rcases h with h | h
      · cases hb : (parse_tokens tokens).background <;> cases hj : os.job_alloc <;>
          simp [h, hb, hj, perror] at he
        all_goals first
          | (rcases he with he | he <;> rw [he] <;> rfl)
          | (rw [he]; rfl)
      · cases hj : os.job_alloc <;> simp [h, hj, perror] at he
        all_goals first
          | (rcases he with he | he <;> rw [he] <;> rfl)
          | (rw [he]; rfl)

theorem C9_terminal_ownership_paired_witness :
    foreground_after 100 (spawn_process (sample_os 4242) true [] ["ls", "-l"]).events = 100 ∧
      (spawn_process (sample_os 4242) true [] ["ls", "-l"]).events =
        [Event.access "/usr/bin/ls" false, Event.access "/bin/ls" true, Event.fork 4242,
          Event.setpgid 4242 4242, Event.tcsetpgrp 0 4242, Event.waitpid 4242 4242,
          Event.tcsetpgrp 0 100] := by
  have h := (C9_terminal_ownership_paired (sample_os 4242) true [] ["ls", "-l"] 4242
    (by rw [spawn_process_eval]; decide) (by decide)).1 rfl (by rw [parse_tokens_eq]; decide)
  exact ⟨h.2.2 100, h.1.trans (by rw [parse_tokens_eq]; decide)⟩

end Cash

namespace WordCount

/-! ### Insert or bump -/

theorem find_word_some (wclist : List word_count) (word : String) :
    ∀ i : Nat, find_word wclist word = some i →
      ∃ old : word_count, wclist[i]? = some old ∧ old.word = word ∧
        ∀ j : Nat, j < i → ∀ e : word_count, wclist[j]? = some e → e.word ≠ word := by
  induction wclist with
  | nil => intro i h; simp [find_word] at h
  | cons e rest ih =>
    intro i h
    unfold find_word at h
    by_cases he : e.word = word
    · rw [if_pos he] at h
      cases h
      exact ⟨e, by simp, he, fun j hj => absurd hj (Nat.not_lt_zero j)⟩
    · rw [if_neg he] at h
      cases hf : find_word rest word with
      | none => rw [hf] at h; cases h
      | some k =>
        rw [hf] at h
        cases h
        obtain ⟨old, hold, hw, hfirst⟩ := ih k hf
        refine ⟨old, by simpa using hold, hw, ?_⟩
        intro j hj x hx
        simp only at hj
        cases j with
        | zero =>
          simp at hx
          rw [← hx]
          exact he
        | succ j => exact hfirst j (by omega) x (by simpa using hx)

theorem find_word_none (wclist : List word_count) (word : String) :
    find_word wclist word = none ↔ ∀ e ∈ wclist, e.word ≠ word := by
  induction wclist with
  | nil => simp [find_word]
  | cons e rest ih =>
    unfold find_word
    by_cases he : e.word = word
    · simp [he]
    · simp [he, ih]

theorem search_p_eq_find_word (wclist : List word_count) (word : String) :
    search_p wclist word = find_word wclist word := by
  induction wclist with
  | nil => rfl
  | cons e rest ih => simp [search_p, find_word, ih]

theorem bump_length (count : Int) (wclist : List word_count) :
    ∀ i : Nat, (bump count wclist i).length = wclist.length := by
  induction wclist with
  | nil => intro i; rfl
  | cons e rest ih =>
    intro i
    cases i with
    | zero => rfl
    | succ i => simp [bump, ih]

theorem bump_words (count : Int) (wclist : List word_count) :
    ∀ i : Nat, (bump count wclist i).map (fun e => e.word) = wclist.map (fun e => e.word) := by
  induction wclist with
  | nil => intro i; rfl
  | cons e rest ih =>
    intro i
    cases i with
    | zero => rfl
    | succ i => simp [bump, ih]

theorem wrap_int_of_range (x : Int) (hlo : INT_MIN ≤ x) (hhi : x ≤ INT_MAX) :
    wrap_int x = x := by
  unfold INT_MIN at hlo
  unfold INT_MAX at hhi
  unfold wrap_int
  omega

theorem wrap_int_add_wrap (a b : Int) : wrap_int (wrap_int a + b) = wrap_int (a + b) := by
  unfold wrap_int
  omega

theorem wrap_int_range (x : Int) : INT_MIN ≤ wrap_int x ∧ wrap_int x ≤ INT_MAX := by
  unfold INT_MIN INT_MAX wrap_int
  omega

theorem bump_at (count : Int) (wclist : List word_count) :
    ∀ (i : Nat) (old : word_count), wclist[i]? = some old →
      (bump count wclist i)[i]? =
        some { word := old.word, count := wrap_int (old.count + count) } := by
  induction wclist with
  | nil => intro i old h; simp at h
  | cons e rest ih =>
    intro i old h
    cases i with
    | zero =>
      simp at h
      simp [bump, h]
    | succ i =>
      simp at h
      simpa [bump] using ih i old h

theorem bump_other (count : Int) (wclist : List word_count) :
    ∀ i j : Nat, j ≠ i → (bump count wclist i)[j]? = wclist[j]? := by
  induction wclist with
  | nil => intro i j _; rfl
  | cons e rest ih =>
    intro i j hij
    cases i with
    | zero =>
      cases j with
      | zero => exact absurd rfl hij
      | succ j => simp [bump]
    | succ i =>
      cases j with
      | zero => simp [bump]
      | succ j => simpa [bump] using ih i j (by omega)

/-- A bump keeps every count of the list in the range of an `int`. -/
theorem bump_range (count : Int) (wclist : List word_count)
    (h : ∀ e ∈ wclist, INT_MIN ≤ e.count ∧ e.count ≤ INT_MAX) :
    ∀ i : Nat, ∀ e ∈ bump count wclist i, INT_MIN ≤ e.count ∧ e.count ≤ INT_MAX := by
  induction wclist with
  | nil => intro i e he; simp [bump] at he
  | cons a rest ih =>
    intro i e he
    cases i with
    | zero =>
      simp only [bump, List.mem_cons] at he
      rcases he with he | he
      · rw [he]; exact wrap_int_range _
      · exact h e (List.mem_cons_of_mem _ he)
    | succ i =>
      simp only [bump, List.mem_cons] at he
      rcases he with he | he
      · rw [he]; exact h a (List.mem_cons_self _ _)
      · exact ih (fun e he => h e (List.mem_cons_of_mem _ he)) i e he

theorem len_words_eq (wclist : List word_count) : len_words wclist = wclist.length := by
  induction wclist with
  | nil => rfl
  | cons e rest ih => simp [len_words, ih]

/-- C10 (as amended): `add_word_with_count` inserts or bumps.  When some entry
has word `w`, `find_word` gives the first such entry; after the call its count
is the `int` sum of the old count and `c`, which is the old count plus `c`
whenever that lies from `INT_MIN` to `INT_MAX`; the list has the same length,
the same words in the same order, every other position holds what it held,
and the returned entry is that one.  When no entry has word `w` and the two
allocations succeed, the entry `(w, c)` is appended at the back, the length
grows by one and the returned entry is the new one.  In every case an entry
for a different word keeps its word, count and position, and when the counts
of the list and `c` are values of an `int` so are the counts of the list
after the call.  `add_word` is the
case `c = 1`, in `word_count_l.c` by definition and in `word_count_p.c`, where
the mutex is free again on return. -/
theorem C10_add_word_with_count (malloc_ok strdup_ok : Bool) (wclist : List word_count)
    (w : String) (c : Int) :
    ((∃ e ∈ wclist, e.word = w) →
      ∃ (i : Nat) (old : word_count),
        find_word wclist w = some i ∧ wclist[i]? = some old ∧ old.word = w ∧
        (∀ j : Nat, j < i → ∀ e : word_count, wclist[j]? = some e → e.word ≠ w) ∧
        (add_word_with_count malloc_ok strdup_ok wclist w c).entry = some i ∧
        (add_word_with_count malloc_ok strdup_ok wclist w c).wclist[i]? =
          some { word := w, count := wrap_int (old.count + c) } ∧
        (INT_MIN ≤ old.count + c → old.count + c ≤ INT_MAX →
          (add_word_with_count malloc_ok strdup_ok wclist w c).wclist[i]? =
            some { word := w, count := old.count + c }) ∧
        (add_word_with_count malloc_ok strdup_ok wclist w c).wclist.length = wclist.length ∧
        len_words (add_word_with_count malloc_ok strdup_ok wclist w c).wclist =
          len_words wclist ∧
        (add_word_with_count malloc_ok strdup_ok wclist w c).wclist.map (fun e => e.word) =
          wclist.map (fun e => e.word) ∧
        ∀ j : Nat, j ≠ i →
          (add_word_with_count malloc_ok strdup_ok wclist w c).wclist[j]? = wclist[j]?) ∧
    ((∀ e ∈ wclist, e.word ≠ w) → malloc_ok = true → strdup_ok = true →
      (add_word_with_count malloc_ok strdup_ok wclist w c).wclist =
          wclist ++ [{ word := w, count := c }] ∧
        (add_word_with_count malloc_ok strdup_ok wclist w c).entry = some wclist.length ∧
        (add_word_with_count malloc_ok strdup_ok wclist w c).wclist.length =
          wclist.length + 1 ∧
        len_words (add_word_with_count malloc_ok strdup_ok wclist w c).wclist =
          len_words wclist + 1) ∧
    (∀ (j : Nat) (e : word_count), wclist[j]? = some e → e.word ≠ w →
      (add_word_with_count malloc_ok strdup_ok wclist w c).wclist[j]? = some e) ∧
    ((∀ e ∈ wclist, INT_MIN ≤ e.count ∧ e.count ≤ INT_MAX) → INT_MIN ≤ c → c ≤ INT_MAX →
      ∀ e ∈ (add_word_with_count malloc_ok strdup_ok wclist w c).wclist,
        INT_MIN ≤ e.count ∧ e.count ≤ INT_MAX) ∧
    add_word malloc_ok strdup_ok wclist w = add_word_with_count malloc_ok strdup_ok wclist w 1 ∧
    add_word_p malloc_ok strdup_ok { lst := wclist, lock := false } w =
      { wclist :=
          { lst := (add_word_with_count malloc_ok strdup_ok wclist w 1).wclist,
            lock := false },
        entry := (add_word_with_count malloc_ok strdup_ok wclist w 1).entry } := by
  refine ⟨?_, ?_, ?_, ?_, rfl, ?_⟩
  · intro hex
    cases hf : find_word wclist w with
    | none =>
      obtain ⟨e, he, hw⟩ := hex
      exact absurd hw ((find_word_none wclist w).mp hf e he)
    | some i =>
      obtain ⟨old, hold, hw, hfirst⟩ := find_word_some wclist w i hf
      have hr : add_word_with_count malloc_ok strdup_ok wclist w c =
          { wclist := bump c wclist i, entry := some i } := by
        unfold add_word_with_count
        rw [hf]
      refine ⟨i, old, rfl, hold, hw, hfirst, ?_, ?_, ?_, ?_, ?_, ?_, ?_⟩
      · rw [hr]
      · rw [hr]
        simp only
        rw [bump_at c wclist i old hold, hw]
      · intro hlo hhi
        rw [hr]
        simp only
        rw [bump_at c wclist i old hold, hw, wrap_int_of_range _ hlo hhi]
      · rw [hr]
        exact bump_length c wclist i
      · rw [hr, len_words_eq, len_words_eq]
        exact bump_length c wclist i
      · rw [hr]
        exact bump_words c wclist i
      · intro j hj
        rw [hr]
        exact bump_other c wclist i j hj
  · intro hno hm hs
    have hf := (find_word_none wclist w).mpr hno
    have hr : add_word_with_count malloc_ok strdup_ok wclist w c =
        { wclist := wclist ++ [{ word := w, count := c }], entry := some wclist.length } := by
      unfold add_word_with_count
      rw [hf, hm, hs]
      rfl
    rw [hr]
    refine ⟨rfl, rfl, by simp, ?_⟩
    rw [len_words_eq, len_words_eq]
    simp
  · intro j e hj hw
    cases hf : find_word wclist w with
    | none =>
      have hr : (add_word_with_count malloc_ok strdup_ok wclist w c).wclist = wclist ∨
          (add_word_with_count malloc_ok strdup_ok wclist w c).wclist =
            wclist ++ [{ word := w, count := c }] := by
        unfold add_word_with_count
        rw [hf]
        cases malloc_ok <;> cases strdup_ok <;> simp
      rcases hr with hr | hr
      · rw [hr]; exact hj
      · rw [hr]
        have hlt : j < wclist.length := by
          rcases Nat.lt_or_ge j wclist.length with h | h
          · exact h
          · rw [List.getElem?_eq_none h] at hj
            cases hj
        rw [List.getElem?_append_left hlt]
        exact hj
    | some i =>
      obtain ⟨old, hold, hwold, _⟩ := find_word_some wclist w i hf
      have hr : add_word_with_count malloc_ok strdup_ok wclist w c =
          { wclist := bump c wclist i, entry := some i } := by
        unfold add_word_with_count
        rw [hf]
      rw [hr]
      have hne : j ≠ i := by
        intro hji
        rw [hji, hold] at hj
        cases hj
        exact hw hwold
      rw [bump_other c wclist i j hne]
      exact hj
  · intro hall hlo hhi e he
    cases hf : find_word wclist w with
    | none =>
      have hr : (add_word_with_count malloc_ok strdup_ok wclist w c).wclist = wclist ∨
          (add_word_with_count malloc_ok strdup_ok wclist w c).wclist =
            wclist ++ [{ word := w, count := c }] := by
        unfold add_word_with_count
        rw [hf]
        cases malloc_ok <;> cases strdup_ok <;> simp
      rcases hr with hr | hr
      · rw [hr] at he
        exact hall e he
      · rw [hr, List.mem_append, List.mem_singleton] at he
        rcases he with he | he
        · exact hall e he
        · rw [he]
          exact ⟨hlo, hhi⟩
    | some i =>
      have hr : (add_word_with_count malloc_ok strdup_ok wclist w c).wclist =
          bump c wclist i := by
        unfold add_word_with_count
        rw [hf]
      rw [hr] at he
      exact bump_range c wclist hall i e he
  · unfold add_word_p add_word_with_count
    simp only [search_p_eq_find_word]
    cases hf : find_word wclist w with
    | none => cases malloc_ok <;> cases strdup_ok <;> rfl
    | some i => rfl

theorem C10_add_word_with_count_witness :
    (add_word_with_count true true
        [{ word := "a", count := 2 }, { word := "b", count := 5 }, { word := "b", count := 1 }]
        "b" 3).wclist[1]? = some { word := "b", count := 5 + 3 } ∧
      (add_word_with_count true true
        [{ word := "a", count := 2 }, { word := "b", count := 5 }] "c" 3).wclist =
        [{ word := "a", count := 2 }, { word := "b", count := 5 }, { word := "c", count := 3 }] := by
  constructor
  · obtain ⟨i, old, hf, hold, _, _, _, _, hnew, _⟩ :=
      (C10_add_word_with_count true true
        [{ word := "a", count := 2 }, { word := "b", count := 5 }, { word := "b", count := 1 }]
        "b" 3).1 ⟨{ word := "b", count := 5 }, by decide, rfl⟩
    have hi : i = 1 := by
      have : find_word
          [{ word := "a", count := 2 }, { word := "b", count := 5 },
            { word := "b", count := 1 }] "b" = some 1 := by decide
      rw [this] at hf
      cases hf
      rfl
    subst hi
    have ho : old = { word := "b", count := 5 } := by
      simp at hold
      exact hold.symm
    rw [ho] at hnew
    exact hnew (by decide) (by decide)
  · exact ((C10_add_word_with_count true true
      [{ word := "a", count := 2 }, { word := "b", count := 5 }] "c" 3).2.1
      (by decide) rfl rfl).1

/-- C10 (as stated) fails: on the list `[(x, 2147483647)]`, whose count is
`INT_MAX`, adding the word `x` with count 1 leaves the entry with the count
-2147483648, not with its old count plus 1; the same for `add_word` of both
files. -/
theorem C10_counterexample_int_overflow :
    (add_word_with_count true true [{ word := "x", count := 2147483647 }] "x" 1).wclist =
        [{ word := "x", count := -2147483648 }] ∧
      (add_word true true [{ word := "x", count := 2147483647 }] "x").wclist =
        [{ word := "x", count := -2147483648 }] ∧
      (add_word_p true true { lst := [{ word := "x", count := 2147483647 }], lock := false }
          "x").wclist.lst = [{ word := "x", count := -2147483648 }] ∧
      (2147483647 : Int) + 1 ≠ -2147483648 ∧
      (add_word_with_count true true [{ word := "x", count := 2147483647 }] "x" 1).wclist ≠
        [{ word := "x", count := 2147483647 + 1 }] := by
  refine ⟨by decide, by decide, by decide, by decide, by decide⟩

/-! ### A sequence of words, added one by one -/

theorem add_word_p_eq (malloc_ok strdup_ok : Bool) (wclist : locked_list) (w : String) :
    add_word_p malloc_ok strdup_ok wclist w =
      { wclist := { lst := (add_word malloc_ok strdup_ok wclist.lst w).wclist, lock := false },
        entry := (add_word malloc_ok strdup_ok wclist.lst w).entry } := by
  unfold add_word_p add_word add_word_with_count
  simp only [search_p_eq_find_word]
  cases hf : find_word wclist.lst w with
  | none => cases malloc_ok <;> cases strdup_ok <;> rfl
  | some i => rfl

theorem add_words_snoc (malloc_ok strdup_ok : Bool) (ws : List String) (w : String)
    (wclist : List word_count) :
    add_words malloc_ok strdup_ok (ws ++ [w]) wclist =
      (add_word malloc_ok strdup_ok (add_words malloc_ok strdup_ok ws wclist) w).wclist := by
  simp [add_words, List.foldl_append]

theorem add_words_p_eq (malloc_ok strdup_ok : Bool) (ws : List String) :
    ∀ wclist : locked_list, wclist.lock = false →
      add_words_p malloc_ok strdup_ok ws wclist =
        { lst := add_words malloc_ok strdup_ok ws wclist.lst, lock := false } := by
  induction ws with
  | nil =>
    intro wclist h
    cases wclist
    simp only at h
    simp [add_words_p, add_words, h]
  | cons w ws ih =>
    intro wclist _
    have h1 : add_words_p malloc_ok strdup_ok (w :: ws) wclist =
        add_words_p malloc_ok strdup_ok ws (add_word_p malloc_ok strdup_ok wclist w).wclist := rfl
    have h2 : add_words malloc_ok strdup_ok (w :: ws) wclist.lst =
        add_words malloc_ok strdup_ok ws (add_word malloc_ok strdup_ok wclist.lst w).wclist := rfl
    rw [h1, h2, add_word_p_eq, ih _ rfl]

/-- On a list without repeated words, bumping the first entry for `w` is
bumping every entry for `w`. -/
theorem bump_eq_map (count : Int) (w : String) (wclist : List word_count) :
    ∀ i : Nat, (wclist.map (fun e => e.word)).Nodup → find_word wclist w = some i →
      bump count wclist i =
        wclist.map (fun e =>
          if e.word = w then { e with count := wrap_int (e.count + count) } else e) := by
  induction wclist with
  | nil => intro i _ h; simp [find_word] at h
  | cons e rest ih =>
    intro i hnd hf
    rw [List.map_cons, List.nodup_cons] at hnd
    unfold find_word at hf
    by_cases he : e.word = w
    · rw [if_pos he] at hf
      cases hf
      have hrest : rest.map (fun x =>
          if x.word = w then { x with count := wrap_int (x.count + count) } else x) = rest := by
        conv_rhs => rw [← List.map_id rest]
        apply List.map_congr_left
        intro x hx
        have : x.word ≠ w := by
          intro hxw
          apply hnd.1
          rw [he, ← hxw]
          exact List.mem_map_of_mem _ hx
        simp [this]
      simp [bump, he, hrest]
    · rw [if_neg he] at hf
      cases hk : find_word rest w with
      | none => rw [hk] at hf; cases hf
      | some k =>
        rw [hk] at hf
        cases hf
        simp [bump, he, ih k hnd.2 hk]

theorem add_word_words (wclist : List word_count) (w : String)
    (hnd : (wclist.map (fun e => e.word)).Nodup) :
    (w ∈ wclist.map (fun e => e.word) →
      (add_word true true wclist w).wclist =
        wclist.map (fun e =>
          if e.word = w then { e with count := wrap_int (e.count + 1) } else e)) ∧
    (w ∉ wclist.map (fun e => e.word) →
      (add_word true true wclist w).wclist = wclist ++ [{ word := w, count := 1 }]) := by
  constructor
  · intro hmem
    cases hf : find_word wclist w with
    | none =>
      rw [List.mem_map] at hmem
      obtain ⟨e, he, hw⟩ := hmem
      exact absurd hw ((find_word_none wclist w).mp hf e he)
    | some i =>
      unfold add_word add_word_with_count
      rw [hf]
      exact bump_eq_map 1 w wclist i hnd hf
  · intro hmem
    have hf : find_word wclist w = none := by
      rw [find_word_none]
      intro e he hw
      apply hmem
      rw [← hw]
      exact List.mem_map_of_mem _ he
    unfold add_word add_word_with_count
    rw [hf]
    rfl

/-- The state of the list after the words `ws`: the words of the list are
those of `ws`, each once, ordered by first appearance, and every count is the
number of occurrences as an `int`, that is, reduced by `wrap_int`. -/
theorem add_words_invariant (ws : List String) :
    ((add_words true true ws init_words).map (fun e => e.word)).Pairwise
        (fun a b => ws.indexOf a < ws.indexOf b) ∧
      (∀ w : String, w ∈ (add_words true true ws init_words).map (fun e => e.word) ↔ w ∈ ws) ∧
      (∀ e ∈ add_words true true ws init_words,
        e.count = wrap_int (ws.count e.word : Int)) := by
  induction ws using List.reverseRecOn with
  | nil => simp [add_words, init_words]
  | append_singleton ws w ih =>
    obtain ⟨hord, hmem, hcount⟩ := ih
    have hnd : ((add_words true true ws init_words).map (fun e => e.word)).Nodup := by
      apply List.Pairwise.imp _ hord
      intro a b hab heq
      rw [heq] at hab
      exact absurd hab (Nat.lt_irrefl _)
    rw [add_words_snoc]
    by_cases hw : w ∈ ws
    · have hin := (hmem w).mpr hw
      rw [(add_word_words _ w hnd).1 hin]
      have hwords : ((add_words true true ws init_words).map
          (fun e => if e.word = w then { e with count := wrap_int (e.count + 1) } else e)).map
          (fun e => e.word) = (add_words true true ws init_words).map (fun e => e.word) := by
        rw [List.map_map]
        apply List.map_congr_left
        intro e _
        by_cases h : e.word = w <;> simp [h]
      refine ⟨?_, ?_, ?_⟩
      · rw [hwords]
        apply List.Pairwise.imp_of_mem _ hord
        intro a b ha hb hab
        rw [List.indexOf_append_of_mem ((hmem a).mp ha),
          List.indexOf_append_of_mem ((hmem b).mp hb)]
        exact hab
      · intro x
        rw [hwords, hmem x]
        constructor
        · intro hx
          exact List.mem_append_left _ hx
        · intro hx
          rcases List.mem_append.mp hx with hx | hx
          · exact hx
          · rw [List.mem_singleton] at hx
            rw [hx]
            exact hw
      · intro e' he'
        rw [List.mem_map] at he'
        obtain ⟨e, he, hee⟩ := he'
        have hc := hcount e he
        by_cases h : e.word = w
        · rw [if_pos h] at hee
          rw [← hee]
          simp only [List.count_append]
          rw [h] at hc ⊢
          rw [hc, wrap_int_add_wrap]
          simp
        · rw [if_neg h] at hee
          rw [← hee, hc]
          simp only [List.count_append]
          have : List.count e.word [w] = 0 := by
            rw [List.count_eq_zero]
            simp [h]
          simp [this]
    · have hin : w ∉ (add_words true true ws init_words).map (fun e => e.word) :=
        fun h => hw ((hmem w).mp h)
      rw [(add_word_words _ w hnd).2 hin]
      refine ⟨?_, ?_, ?_⟩
      · rw [List.map_append, List.pairwise_append]
        refine ⟨?_, by simp, ?_⟩
        · apply List.Pairwise.imp_of_mem _ hord
          intro a b ha hb hab
          rw [List.indexOf_append_of_mem ((hmem a).mp ha),
            List.indexOf_append_of_mem ((hmem b).mp hb)]
          exact hab
        · intro a ha b hb
          simp only [List.map_cons, List.map_nil, List.mem_singleton] at hb
          rw [hb, List.indexOf_append_of_mem ((hmem a).mp ha),
            List.indexOf_append_of_not_mem hw]
          have := List.indexOf_lt_length.mpr ((hmem a).mp ha)
          simp
          omega
      · intro x
        rw [List.map_append, List.mem_append, hmem x, List.mem_append]
        simp
      · intro e he
        rw [List.mem_append] at he
        rcases he with he | he
        · rw [hcount e he]
          simp only [List.count_append]
          have hne : e.word ≠ w := by
            intro h
            apply hin
            rw [← h]
            exact List.mem_map_of_mem _ he
          have : List.count e.word [w] = 0 := by
            rw [List.count_eq_zero]
            simp [hne]
          simp [this]
        · rw [List.mem_singleton] at he
          rw [he]
          simp only [List.count_append]
          have : List.count w ws = 0 := List.count_eq_zero.mpr hw
          simp [this]
          decide

theorem sum_map_cast (f : String → Nat) (l : List String) :
    (l.map (fun w => (f w : Int))).sum = ((l.map f).sum : Int) := by
  induction l with
  | nil => rfl
  | cons a l ih => simp [ih]

/-- The counts of a list whose words are the distinct words of `ws` and whose
counts are the numbers of occurrences sum to the length of `ws`. -/
theorem total_count_of_counts (ws : List String) (r : List word_count)
    (hperm : (r.map (fun e => e.word)).Perm ws.dedup)
    (hcount : ∀ e ∈ r, e.count = (ws.count e.word : Int)) :
    total_count r = (ws.length : Int) := by
  unfold total_count
  have h1 : r.map (fun e => e.count) =
      (r.map (fun e => e.word)).map (fun w => (ws.count w : Int)) := by
    rw [List.map_map]
    apply List.map_congr_left
    intro e he
    exact hcount e he
  rw [h1, (hperm.map _).sum_eq, sum_map_cast, List.sum_map_count_dedup_eq_length]

theorem add_words_replicate (x : String) (n : Nat) :
    add_words true true (List.replicate (n + 1) x) init_words =
      [{ word := x, count := wrap_int ((n : Int) + 1) }] := by
  induction n with
  | zero =>
    have : wrap_int ((0 : Nat) + 1 : Int) = 1 := by decide
    rw [this]
    rfl
  | succ n ih =>
    rw [List.replicate_succ', add_words_snoc, ih]
    have hf : find_word [{ word := x, count := wrap_int ((n : Int) + 1) }] x = some 0 := by
      simp [find_word]
    unfold add_word add_word_with_count
    rw [hf]
    simp only [bump]
    rw [wrap_int_add_wrap]
    push_cast
    rfl

/-- C12 (as amended): after the words of the sequence `ws` have been added one
by one with `add_word` to a list fresh from `init_words` (every allocation
succeeding), the words of the list are pairwise distinct, they are exactly
the words of `ws`, and they stand in the order of their first appearance in
`ws`; so `len_words` is the number of distinct words of `ws`.  The count of
each word is the number of its occurrences in `ws` as an `int`, a value from
`INT_MIN` to `INT_MAX`; when no word occurs more than `INT_MAX` times it is
that number itself, and the counts sum to the length of `ws`.  The list of `word_count_p.c` ends with the same
entries and its mutex free. -/
theorem C12_add_words_tally (ws : List String) :
    ((add_words true true ws init_words).map (fun e => e.word)).Nodup ∧
      (∀ w : String, w ∈ (add_words true true ws init_words).map (fun e => e.word) ↔ w ∈ ws) ∧
      ((add_words true true ws init_words).map (fun e => e.word)).Pairwise
        (fun a b => ws.indexOf a < ws.indexOf b) ∧
      len_words (add_words true true ws init_words) = ws.dedup.length ∧
      (∀ e ∈ add_words true true ws init_words,
        e.count = wrap_int (ws.count e.word : Int)) ∧
      ((∀ w : String, (ws.count w : Int) ≤ INT_MAX) →
        (∀ e ∈ add_words true true ws init_words, e.count = (ws.count e.word : Int)) ∧
          total_count (add_words true true ws init_words) = (ws.length : Int)) ∧
      (∀ e ∈ add_words true true ws init_words, INT_MIN ≤ e.count ∧ e.count ≤ INT_MAX) ∧
      add_words_p true true ws init_words_p =
        { lst := add_words true true ws init_words, lock := false } ∧
      add_words true true ["a", "b", "a", "c", "b", "a"] init_words =
        [{ word := "a", count := 3 }, { word := "b", count := 2 },
          { word := "c", count := 1 }] := by
  obtain ⟨hord, hmem, hcount⟩ := add_words_invariant ws
  have hnd : ((add_words true true ws init_words).map (fun e => e.word)).Nodup := by
    apply List.Pairwise.imp _ hord
    intro a b hab heq
    rw [heq] at hab
    exact absurd hab (Nat.lt_irrefl _)
  have hperm : ((add_words true true ws init_words).map (fun e => e.word)).Perm ws.dedup := by
    apply List.perm_of_nodup_nodup_toFinset_eq hnd (List.nodup_dedup ws)
    ext x
    simp [hmem x]
  refine ⟨hnd, hmem, hord, ?_, hcount, ?_, ?_, ?_, by decide⟩
  · rw [len_words_eq]
    have := hperm.length_eq
    simpa using this
  · intro hbound
    have hexact : ∀ e ∈ add_words true true ws init_words,
        e.count = (ws.count e.word : Int) := by
      intro e he
      rw [hcount e he]
      apply wrap_int_of_range
      · unfold INT_MIN
        omega
      · exact hbound e.word
    exact ⟨hexact, total_count_of_counts ws _ hperm hexact⟩
  · intro e he
    rw [hcount e he]
    exact wrap_int_range _
  · exact add_words_p_eq true true ws init_words_p rfl

theorem C12_add_words_tally_witness :
    len_words (add_words true true ["to", "be", "or", "not", "to", "be"] init_words) = 4 ∧
      total_count (add_words true true ["to", "be", "or", "not", "to", "be"] init_words) = 6 ∧
      ∀ e ∈ add_words true true ["to", "be", "or", "not", "to", "be"] init_words,
        e.count = (List.count e.word ["to", "be", "or", "not", "to", "be"] : Int) :=
  have hbound : ∀ w : String,
      (List.count w ["to", "be", "or", "not", "to", "be"] : Int) ≤ INT_MAX := by
    intro w
    have := List.count_le_length w ["to", "be", "or", "not", "to", "be"]
    simp only [List.length_cons, List.length_nil] at this
    unfold INT_MAX
    omega
  ⟨(C12_add_words_tally ["to", "be", "or", "not", "to", "be"]).2.2.2.1.trans (by decide),
    ((C12_add_words_tally ["to", "be", "or", "not", "to", "be"]).2.2.2.2.2.1 hbound).2,
    ((C12_add_words_tally ["to", "be", "or", "not", "to", "be"]).2.2.2.2.2.1 hbound).1⟩

/-- C12 (as stated) fails: after the word `x` has been added 2147483648 times
(once more than `INT_MAX`), the list holds `x` with the count -2147483648,
while `x` occurs 2147483648 times in the sequence; the same for the list of
`word_count_p.c`. -/
theorem C12_counterexample_int_overflow :
    add_words true true (List.replicate 2147483648 "x") init_words =
        [{ word := "x", count := -2147483648 }] ∧
      (add_words_p true true (List.replicate 2147483648 "x") init_words_p).lst =
        [{ word := "x", count := -2147483648 }] ∧
      List.count "x" (List.replicate 2147483648 "x") = 2147483648 ∧
      (-2147483648 : Int) ≠ ((2147483648 : Nat) : Int) := by
  have h : add_words true true (List.replicate 2147483648 "x") init_words =
      [{ word := "x", count := -2147483648 }] := by
    have h0 := add_words_replicate "x" 2147483647
    have e : wrap_int (((2147483647 : Nat) : Int) + 1) = -2147483648 := by decide
    rw [e] at h0
    exact h0
  have hp : add_words_p true true (List.replicate 2147483648 "x") init_words_p =
      { lst := add_words true true (List.replicate 2147483648 "x") init_words,
        lock := false } :=
    add_words_p_eq true true _ init_words_p rfl
  refine ⟨h, ?_, List.count_replicate_self _ _, by decide⟩
  rw [hp, ← h]

/-! ### Printing the counts and reading them back -/

theorem digit_char_spec (d : Nat) (h : d < 10) :
    (digit_char d).isDigit = true ∧ (digit_char d).toNat - 48 = d := by
  interval_cases d <;> exact ⟨by decide, by decide⟩

theorem is_space_of_isDigit (c : Char) (h : c.isDigit = true) : is_space c = false := by
  cases hs : is_space c with
  | false => rfl
  | true =>
    simp only [is_space, Bool.or_eq_true, decide_eq_true_eq] at hs
    rcases hs with ((((hs | hs) | hs) | hs) | hs) | hs <;> rw [hs] at h <;>
      exact absurd h (by decide)

theorem dec_digits_fuel_isDigit (fuel : Nat) :
    ∀ n : Nat, ∀ c ∈ dec_digits_fuel fuel n, c.isDigit = true := by
  induction fuel with
  | zero => intro n c hc; simp [dec_digits_fuel] at hc
  | succ fuel ih =>
    intro n c hc
    unfold dec_digits_fuel at hc
    by_cases hn : n < 10
    · rw [if_pos hn, List.mem_singleton] at hc
      rw [hc]
      exact (digit_char_spec n hn).1
    · rw [if_neg hn, List.mem_append, List.mem_singleton] at hc
      rcases hc with hc | hc
      · exact ih _ c hc
      · rw [hc]
        exact (digit_char_spec (n % 10) (Nat.mod_lt _ (by decide))).1

theorem digits_value_snoc (ds : List Char) (c : Char) :
    digits_value (ds ++ [c]) = digits_value ds * 10 + (c.toNat - 48) := by
  simp [digits_value, List.foldl_append]

theorem dec_digits_fuel_value (fuel : Nat) :
    ∀ n : Nat, n < fuel → digits_value (dec_digits_fuel fuel n) = n := by
  induction fuel with
  | zero => intro n h; exact absurd h (Nat.not_lt_zero n)
  | succ fuel ih =>
    intro n h
    unfold dec_digits_fuel
    by_cases hn : n < 10
    · rw [if_pos hn]
      have := (digit_char_spec n hn).2
      simp [digits_value, this]
    · rw [if_neg hn, digits_value_snoc, ih (n / 10) (by omega),
        (digit_char_spec (n % 10) (Nat.mod_lt _ (by decide))).2]
      omega

theorem dec_digits_fuel_ne_nil (fuel n : Nat) (h : n < fuel) : dec_digits_fuel fuel n ≠ [] := by
  cases fuel with
  | zero => exact absurd h (Nat.not_lt_zero n)
  | succ fuel =>
    unfold dec_digits_fuel
    by_cases hn : n < 10
    · rw [if_pos hn]; simp
    · rw [if_neg hn]; simp

theorem dec_digits_fuel_length (fuel : Nat) :
    ∀ n k : Nat, n < 10 ^ (k + 1) → (dec_digits_fuel fuel n).length ≤ k + 1 := by
  induction fuel with
  | zero => intro n k _; simp [dec_digits_fuel]
  | succ fuel ih =>
    intro n k h
    unfold dec_digits_fuel
    by_cases hn : n < 10
    · rw [if_pos hn]; simp
    · rw [if_neg hn]
      cases k with
      | zero => simp at h; omega
      | succ k =>
        have hdiv : n / 10 < 10 ^ (k + 1) := by
          apply Nat.div_lt_of_lt_mul
          rw [pow_succ] at h
          omega
        have := ih (n / 10) k hdiv
        simp
        omega

/-- The text of a count of at most eight characters: not empty, it starts
with a character that is not white space, and `%8d` reads it back. -/
theorem int_text_ne_nil (n : Int) : int_text n ≠ [] := by
  unfold int_text
  by_cases h : n < 0
  · rw [if_pos h]; simp
  · rw [if_neg h]
    exact dec_digits_fuel_ne_nil _ _ (Nat.lt_succ_self _)

theorem skip_space_replicate (k : Nat) (s : List Char) :
    skip_space (List.replicate k ' ' ++ s) = skip_space s := by
  induction k with
  | zero => rfl
  | succ k ih =>
    rw [List.replicate_succ, List.cons_append]
    unfold skip_space at ih ⊢
    rw [List.dropWhile_cons, if_pos (by decide)]
    exact ih

theorem skip_space_cons_of_not (c : Char) (t : List Char) (h : is_space c = false) :
    skip_space (c :: t) = c :: t := by
  unfold skip_space
  rw [List.dropWhile_cons, if_neg (by simp [h])]

theorem skip_space_cons_of_space (c : Char) (t : List Char) (h : is_space c = true) :
    skip_space (c :: t) = skip_space t := by
  unfold skip_space
  rw [List.dropWhile_cons, if_pos h]

theorem skip_space_idem (s : List Char) : skip_space (skip_space s) = skip_space s := by
  induction s with
  | nil => rfl
  | cons c t ih =>
    by_cases h : is_space c = true
    · rw [skip_space_cons_of_space c t h, ih]
    · have h' : is_space c = false := by simpa using h
      rw [skip_space_cons_of_not c t h', skip_space_cons_of_not c t h']

theorem skip_space_length_le (s : List Char) : (skip_space s).length ≤ s.length := by
  unfold skip_space
  exact (List.dropWhile_sublist _).length_le

theorem takeWhile_digits (ds : List Char) (hds : ∀ c ∈ ds, c.isDigit = true) (room : Nat)
    (hroom : ds.length ≤ room) (c : Char) (hc : c.isDigit = false) (t : List Char) :
    ((ds ++ c :: t).take room).takeWhile Char.isDigit = ds := by
  induction ds generalizing room with
  | nil =>
    cases room with
    | zero => simp
    | succ room => simp [List.takeWhile_cons, hc]
  | cons d ds ih =>
    cases room with
    | zero => simp at hroom
    | succ room =>
      have hd : d.isDigit = true := hds d (List.mem_cons_self _ _)
      simp only [List.cons_append, List.take_succ_cons, List.takeWhile_cons, hd, if_true]
      rw [ih (fun x hx => hds x (List.mem_cons_of_mem _ hx)) room (by simpa using hroom)]

theorem scan_d_of_skip (width : Nat) (s : List Char) (c : Char) (t : List Char)
    (h : skip_space s = c :: t) :
    scan_d width s =
      if ((if c = '-' ∨ c = '+' then t else c :: t).take
          (if c = '-' ∨ c = '+' then width - 1 else width)).takeWhile Char.isDigit = [] then
        ScanInt.matching_failure (if c = '-' ∨ c = '+' then t else c :: t)
      else
        ScanInt.value
          (if (decide (c = '-')) = true then
            -(digits_value (((if c = '-' ∨ c = '+' then t else c :: t).take
              (if c = '-' ∨ c = '+' then width - 1 else width)).takeWhile Char.isDigit) : Int)
          else (digits_value (((if c = '-' ∨ c = '+' then t else c :: t).take
              (if c = '-' ∨ c = '+' then width - 1 else width)).takeWhile Char.isDigit) : Int))
          ((if c = '-' ∨ c = '+' then t else c :: t).drop
            (((if c = '-' ∨ c = '+' then t else c :: t).take
              (if c = '-' ∨ c = '+' then width - 1 else width)).takeWhile
                Char.isDigit).length) := by
  unfold scan_d
  rw [h]

/-- The conversion `%8d` reads back a printed count whose text has at most
eight characters. -/
theorem scan_d_printed (n : Int) (hlo : -9999999 ≤ n) (hhi : n ≤ 99999999) (c : Char)
    (hc : c.isDigit = false) (t : List Char) :
    scan_d 8 (pad_left 8 (int_text n) ++ c :: t) = ScanInt.value n (c :: t) := by
  have hdig := dec_digits_fuel_isDigit (n.natAbs + 1) n.natAbs
  have hval := dec_digits_fuel_value (n.natAbs + 1) n.natAbs (Nat.lt_succ_self _)
  have hne := dec_digits_fuel_ne_nil (n.natAbs + 1) n.natAbs (Nat.lt_succ_self _)
  unfold pad_left
  rw [List.append_assoc]
  by_cases hn : n < 0
  · have hlen : (dec_digits_fuel (n.natAbs + 1) n.natAbs).length ≤ 7 :=
      dec_digits_fuel_length _ _ 6 (by omega)
    have hskip : skip_space (List.replicate (8 - (int_text n).length) ' ' ++
        (int_text n ++ c :: t)) = '-' :: (dec_digits n.natAbs ++ c :: t) := by
      rw [skip_space_replicate]
      unfold int_text
      rw [if_pos hn, List.cons_append]
      exact skip_space_cons_of_not _ _ (by decide)
    rw [scan_d_of_skip 8 _ _ _ hskip]
    have htw := takeWhile_digits _ hdig 7 hlen c hc t
    simp only [true_or, if_true, decide_True]
    unfold dec_digits
    rw [show (8 : Nat) - 1 = 7 from rfl, htw, if_neg hne, hval, List.drop_left]
    congr 1
    omega
  · have hlen : (dec_digits_fuel (n.natAbs + 1) n.natAbs).length ≤ 8 :=
      dec_digits_fuel_length _ _ 7 (by omega)
    obtain ⟨d, ds, hds⟩ := List.exists_cons_of_ne_nil hne
    have hd : d.isDigit = true := hdig d (by rw [hds]; exact List.mem_cons_self _ _)
    have hskip : skip_space (List.replicate (8 - (int_text n).length) ' ' ++
        (int_text n ++ c :: t)) = d :: (ds ++ c :: t) := by
      rw [skip_space_replicate]
      unfold int_text dec_digits
      rw [if_neg hn, hds, List.cons_append]
      exact skip_space_cons_of_not _ _ (is_space_of_isDigit d hd)
    rw [scan_d_of_skip 8 _ _ _ hskip]
    have hsign : ¬(d = '-' ∨ d = '+') := by
      intro h
      rcases h with h | h <;> rw [h] at hd <;> exact absurd hd (by decide)
    have hminus : decide (d = '-') = false := by
      simp only [decide_eq_false_iff_not]
      exact fun h => hsign (Or.inl h)
    have htw := takeWhile_digits _ hdig 8 hlen c hc t
    rw [hds, List.cons_append] at htw
    rw [if_neg hsign, if_neg hsign, htw, hminus]
    simp only [Bool.false_eq_true, if_false]
    rw [if_neg (by simp), ← hds, hval]
    have hdrop : (d :: (ds ++ c :: t)).drop (dec_digits_fuel (n.natAbs + 1) n.natAbs).length =
        c :: t := by
      rw [← List.cons_append, ← hds, List.drop_left]
    rw [hdrop]
    congr 1
    omega

theorem scan_ms_of_skip (s : List Char) (a : Char) (b : List Char)
    (h : skip_space s = a :: b) :
    scan_ms s = some (String.mk ((a :: b).takeWhile (fun x => !is_space x)),
      (a :: b).dropWhile (fun x => !is_space x)) := by
  unfold scan_ms
  rw [h]

theorem scan_ms_word (word : String) (hne : word ≠ "")
    (hfree : ∀ c ∈ word.toList, is_space c = false) (c : Char) (hc : is_space c = true)
    (t : List Char) :
    scan_ms (word.toList ++ c :: t) = some (word, c :: t) := by
  have hl : word.toList ≠ [] := by
    intro h
    apply hne
    have : word = String.mk word.toList := rfl
    rw [this, h]
  obtain ⟨d, ds, hds⟩ := List.exists_cons_of_ne_nil hl
  have hd : is_space d = false := hfree d (by rw [hds]; exact List.mem_cons_self _ _)
  have hskip : skip_space (word.toList ++ c :: t) = d :: (ds ++ c :: t) := by
    rw [hds, List.cons_append]
    exact skip_space_cons_of_not _ _ hd
  rw [scan_ms_of_skip _ _ _ hskip, ← List.cons_append, ← hds]
  have h1 : (word.toList ++ c :: t).takeWhile (fun x => !is_space x) = word.toList := by
    rw [List.takeWhile_append_of_pos (by intro x hx; simp [hfree x hx])]
    simp [List.takeWhile_cons, hc]
  have h2 : (word.toList ++ c :: t).dropWhile (fun x => !is_space x) = c :: t := by
    rw [List.dropWhile_append_of_pos (by intro x hx; simp [hfree x hx])]
    simp [List.dropWhile_cons, hc]
  rw [h1, h2]
  rfl

/-- One call of `fscanf` on a printed line, followed by any text, assigns the
count and the word of the line and leaves the text after the line, less its
leading white space. -/
theorem fscanf_print_line (e : word_count) (hlo : -9999999 ≤ e.count)
    (hhi : e.count ≤ 99999999) (hne : e.word ≠ "")
    (hfree : ∀ c ∈ e.word.toList, is_space c = false) (tail : List Char) :
    fscanf_count_word (print_line e ++ tail) =
      ScanResult.ok e.count e.word (skip_space tail) := by
  unfold fscanf_count_word print_line
  have h0 : pad_left 8 (int_text e.count) ++ '\t' :: (e.word.toList ++ ['\n']) ++ tail =
      pad_left 8 (int_text e.count) ++ '\t' :: (e.word.toList ++ '\n' :: tail) := by
    simp
  rw [h0, scan_d_printed e.count hlo hhi '\t' (by decide)]
  simp only
  rw [skip_space_cons_of_space '\t' _ (by decide)]
  have hl : e.word.toList ≠ [] := by
    intro h
    apply hne
    have : e.word = String.mk e.word.toList := rfl
    rw [this, h]
  obtain ⟨d, ds, hds⟩ := List.exists_cons_of_ne_nil hl
  have hd : is_space d = false := hfree d (by rw [hds]; exact List.mem_cons_self _ _)
  have hskip : skip_space (e.word.toList ++ '\n' :: tail) = e.word.toList ++ '\n' :: tail := by
    rw [hds, List.cons_append]
    exact skip_space_cons_of_not _ _ hd
  rw [hskip, scan_ms_word e.word hne hfree '\n' (by decide)]
  simp only
  rw [skip_space_cons_of_space '\n' _ (by decide)]

theorem fscanf_skip (s s' : List Char) (h : skip_space s = skip_space s') :
    fscanf_count_word s = fscanf_count_word s' := by
  unfold fscanf_count_word scan_d
  rw [h]

/-- A call of `fscanf` that assigns both items reads at least one
character. -/
theorem fscanf_ok_shorter (s : List Char) (count : Int) (word : String) (rest : List Char)
    (h : fscanf_count_word s = ScanResult.ok count word rest) : rest.length < s.length := by
  unfold fscanf_count_word at h
  cases hs : skip_space s with
  | nil =>
    unfold scan_d at h
    rw [hs] at h
    simp at h
  | cons c t =>
    rw [scan_d_of_skip 8 s c t hs] at h
    have hsl := skip_space_length_le s
    rw [hs, List.length_cons] at hsl
    generalize hbody : (if c = '-' ∨ c = '+' then t else c :: t) = body at h
    generalize hroom : (if c = '-' ∨ c = '+' then 8 - 1 else 8) = room at h
    have hbl : body.length ≤ t.length + 1 := by
      rw [← hbody]
      by_cases hc : c = '-' ∨ c = '+'
      · rw [if_pos hc]; omega
      · rw [if_neg hc]; simp
    by_cases hds : (body.take room).takeWhile Char.isDigit = []
    · rw [if_pos hds] at h
      simp at h
    · rw [if_neg hds] at h
      simp only at h
      have hpos : 0 < ((body.take room).takeWhile Char.isDigit).length :=
        List.length_pos.mpr hds
      have hle : ((body.take room).takeWhile Char.isDigit).length ≤ body.length :=
        le_trans (List.takeWhile_sublist _).length_le (List.take_sublist _ _).length_le
      have hr1 : (body.drop ((body.take room).takeWhile Char.isDigit).length).length
          < body.length := by
        rw [List.length_drop]
        omega
      generalize body.drop ((body.take room).takeWhile Char.isDigit).length = rest1 at h hr1
      cases hm : scan_ms (skip_space rest1) with
      | none => rw [hm] at h; simp at h
      | some p =>
        obtain ⟨w, rest2⟩ := p
        rw [hm] at h
        simp only [ScanResult.ok.injEq] at h
        obtain ⟨_, _, hrest⟩ := h
        unfold scan_ms at hm
        cases hss : skip_space (skip_space rest1) with
        | nil => rw [hss] at hm; simp at hm
        | cons a b =>
          rw [hss] at hm
          simp only [Option.some.injEq, Prod.mk.injEq] at hm
          have h2 : rest2.length ≤ (a :: b).length := by
            rw [← hm.2]
            exact (List.dropWhile_sublist _).length_le
          have h3 : (a :: b).length ≤ rest1.length := by
            rw [← hss]
            exact le_trans (skip_space_length_le _) (skip_space_length_le _)
          have h4 := skip_space_length_le rest2
          rw [hrest] at h4
          omega

theorem merge_loop_returns (malloc_ok strdup_ok : Bool) (fuel : Nat) :
    ∀ (wclist : List word_count) (s : List Char), s.length < fuel →
      (merge_loop malloc_ok strdup_ok fuel wclist s).isSome = true := by
  induction fuel with
  | zero => intro _ s h; exact absurd h (Nat.not_lt_zero _)
  | succ fuel ih =>
    intro wclist s h
    unfold merge_loop
    cases hf : fscanf_count_word s with
    | eof => rfl
    | matched items rest => rfl
    | ok count word rest =>
      simp only
      apply ih
      have := fscanf_ok_shorter s count word rest hf
      omega

/-- The function `merge_counts` returns on every stream: the calls allowed to
`merge_loop` always suffice. -/
theorem merge_counts_returns (malloc_ok strdup_ok : Bool) (wclist : List word_count)
    (text : List Char) : (merge_counts malloc_ok strdup_ok wclist text).isSome = true :=
  merge_loop_returns malloc_ok strdup_ok _ wclist text (Nat.lt_succ_self _)

theorem add_word_with_count_fresh (wclist : List word_count) (e : word_count)
    (h : ∀ x ∈ wclist, x.word ≠ e.word) :
    (add_word_with_count true true wclist e.word e.count).wclist = wclist ++ [e] := by
  unfold add_word_with_count
  rw [(find_word_none wclist e.word).mpr h]
  rfl

theorem merge_loop_printed (l : List word_count) :
    ∀ (acc : List word_count) (fuel : Nat) (s : List Char),
      skip_space s = skip_space (fprint_words l) → s.length < fuel →
      (l.map (fun e => e.word)).Nodup →
      (∀ e ∈ l, e.word ≠ "" ∧ (∀ c ∈ e.word.toList, is_space c = false) ∧
        -9999999 ≤ e.count ∧ e.count ≤ 99999999) →
      (∀ e ∈ l, ∀ x ∈ acc, x.word ≠ e.word) →
      merge_loop true true fuel acc s =
        some { wclist := acc ++ l, rest := [], stderr := [] } := by
  induction l with
  | nil =>
    intro acc fuel s hs hfuel _ _ _
    cases fuel with
    | zero => exact absurd hfuel (Nat.not_lt_zero _)
    | succ fuel =>
      have : fscanf_count_word s = ScanResult.eof := by
        rw [fscanf_skip s [] (by rw [hs]; rfl)]
        rfl
      unfold merge_loop
      rw [this]
      simp
  | cons e rest ih =>
    intro acc fuel s hs hfuel hnd hwf hacc
    cases fuel with
    | zero => exact absurd hfuel (Nat.not_lt_zero _)
    | succ fuel =>
      obtain ⟨hne, hfree, hlo, hhi⟩ := hwf e (List.mem_cons_self _ _)
      have hscan : fscanf_count_word s =
          ScanResult.ok e.count e.word (skip_space (fprint_words rest)) := by
        rw [fscanf_skip s _ hs]
        exact fscanf_print_line e hlo hhi hne hfree (fprint_words rest)
      have hshort := fscanf_ok_shorter s _ _ _ hscan
      rw [List.map_cons, List.nodup_cons] at hnd
      unfold merge_loop
      rw [hscan]
      simp only
      rw [add_word_with_count_fresh acc e (hacc e (List.mem_cons_self _ _)),
        ih (acc ++ [e]) fuel _ (skip_space_idem _) (by omega) hnd.2
          (fun x hx => hwf x (List.mem_cons_of_mem _ hx))]
      · simp
      · intro x hx y hy
        rw [List.mem_append, List.mem_singleton] at hy
        rcases hy with hy | hy
        · exact hacc x (List.mem_cons_of_mem _ hx) y hy
        · rw [hy]
          intro heq
          apply hnd.1
          rw [heq]
          exact List.mem_map_of_mem _ hx

/-- The round trip for counts whose text has at most eight characters: on a
list with pairwise distinct, non-empty, white-space-free words and counts
from -9999999 to 99999999, `merge_counts` (every allocation succeeding) reads
the text of `fprint_words` to its end, writes no diagnostic and builds the
same list. -/
theorem merge_counts_fprint_words (l : List word_count)
    (hnd : (l.map (fun e => e.word)).Nodup)
    (hwf : ∀ e ∈ l, e.word ≠ "" ∧ (∀ c ∈ e.word.toList, is_space c = false) ∧
      -9999999 ≤ e.count ∧ e.count ≤ 99999999) :
    merge_counts true true [] (fprint_words l) =
      some { wclist := l, rest := [], stderr := [] } := by
  unfold merge_counts
  rw [merge_loop_printed l [] _ _ rfl (Nat.lt_succ_self _) hnd hwf (by simp)]
  simp

theorem merge_counts_fprint_words_example :
    merge_counts true true [] (fprint_words
        [{ word := "the", count := 99999999 }, { word := "a", count := -9999999 },
          { word := "of", count := 0 }]) =
      some
        { wclist :=
            [{ word := "the", count := 99999999 }, { word := "a", count := -9999999 },
              { word := "of", count := 0 }],
          rest := [], stderr := [] } :=
  merge_counts_fprint_words _ (by decide) (by decide)

/-- C11: what the code does on a count of nine digits.  For the list with the
one entry `(w, 100000000)`, `fprint_words` writes `100000000`, a tab, `w` and
a newline (`%8d` pads, it does not cut).  The first `fscanf` reads at most
eight characters for `%8d`, so it assigns the count 10000000 and, `\t`
matching no white space, the word `0`; the second finds `w` where a number
should start and assigns nothing.  `merge_counts` ends with the list
`[(0, 10000000)]`, the text `w` and the newline unread, and the diagnostic
`read ill-formed count (matched 0)`: not the list that was printed. -/
theorem C11_merge_counts_truncates_wide_count :
    fprint_words [{ word := "w", count := 100000000 }] = "100000000\tw\n".toList ∧
      (fprint_words_p { lst := [{ word := "w", count := 100000000 }], lock := false }).1 =
        "100000000\tw\n".toList ∧
      fscanf_count_word "100000000\tw\n".toList =
        ScanResult.ok 10000000 "0" "w\n".toList ∧
      fscanf_count_word "w\n".toList = ScanResult.matched 0 "w\n".toList ∧
      merge_counts true true [] (fprint_words [{ word := "w", count := 100000000 }]) =
        some
          { wclist := [{ word := "0", count := 10000000 }],
            rest := "w\n".toList,
            stderr := ["read ill-formed count (matched 0)\n"] } ∧
      merge_counts true true [] (fprint_words [{ word := "w", count := 100000000 }]) ≠
        some
          { wclist := [{ word := "w", count := 100000000 }], rest := [], stderr := [] } := by
  refine ⟨by decide, by decide, by decide, by decide, by decide, by decide⟩

end WordCount
